import Mathlib

/-!
# Verification of the sorting-visualizer core (`src/app/page.tsx`)

This file embeds the algorithmic core of the sorting visualizer in Lean and
proves properties of it. The source is a React page whose sorting engines
(`bubbleSort`, `quickSort`, `mergeSort`, `heapSort`) are async functions over a
working copy of an array of `ArrayBar` records, parameterized by an
`isBenchmark` flag. In benchmark ("silent") mode every `if (!isBenchmark)`
block — visual-flag updates, `setArray` publication, `sleep` pacing, sound,
history, confetti — is skipped, so the benchmark path is a pure function of
the array and a `(comparisons, swaps)` accumulator. Wall-clock time
(`timeElapsed`, `Date.now()`) is outside the embedding.

Embedding conventions:
* JS arrays of `ArrayBar` objects become `List ArrayBar`; element values are
  `Int` (the generated values are integers in `[5, 100]`).
* The counters of `SortStats` become `Nat` (they only ever increase by 1).
* Index-based loops become structural recursions: the bubble inner loop and
  the merge loops walk the affected segment; quicksort and heapify keep
  explicit indices into the global list, with reads/writes through total
  `getD`/`set` helpers (every executed access is in bounds, which the
  correctness proofs establish).
* JS recursion (quicksort helper, heapify, mergesort helper) is modelled with
  an explicit fuel argument so that every definition computes by kernel
  reduction; the top-level entry points pass fuel that provably suffices.
* `Math.random()` is modelled as an exact rational in `[0, 1)` supplied by an
  oracle `Nat → ℚ` (one draw per generated element); the float rounding of
  the original is not modelled.

The interactive (visualization) path and the benchmark orchestrator are
modelled further below.
-/

set_option maxRecDepth 1000000

namespace SortViz

/-- Element state model: one bar of the visualized array
(interface `ArrayBar`, page.tsx lines 45-50). -/
structure ArrayBar where
  value : Int
  isComparing : Bool
  isSorted : Bool
  isSwapping : Bool
deriving DecidableEq, Repr

instance : Inhabited ArrayBar := ⟨⟨0, false, false, false⟩⟩

/-- Run statistics accumulator (interface `SortStats`, page.tsx lines 52-56),
restricted to the two operation counters; `timeElapsed` is wall-clock and is
not part of the embedding. -/
structure SortStats where
  comparisons : Nat
  swaps : Nat
deriving DecidableEq, Repr

/-- Builds a list of bars with all visual flags reset, as the benchmark
orchestrator does for its test arrays (page.tsx lines 657-664). -/
def mkBars (l : List Int) : List ArrayBar :=
  l.map fun v => ⟨v, false, false, false⟩

/-- Projection to the value order of an array of bars. -/
def vals (l : List ArrayBar) : List Int := l.map ArrayBar.value

/-! ## Bubble sort, benchmark path (page.tsx lines 247-310)

The inner loop `for (j = 0; j < n - i - 1; j++)` compares adjacent elements
`workingArray[j]`/`workingArray[j+1]` and swaps them when out of order; it is
embedded as a structural walk carrying the element currently at position `j`,
with `bound = n - i - 1` counting the comparisons left in the pass. -/

/-- One full inner-loop pass of `bubbleSort` with `bound` comparisons
(page.tsx lines 255-295, benchmark path). The fall-through case (fewer than
two elements left while `bound > 0`) is unreachable for the bounds the outer
loop passes. -/
def bubblePass : Nat → List ArrayBar → SortStats → List ArrayBar × SortStats
  | bound + 1, a :: b :: rest, s =>
    let s1 : SortStats := { s with comparisons := s.comparisons + 1 }
    if a.value > b.value then
      let s2 : SortStats := { s1 with swaps := s1.swaps + 1 }
      let r := bubblePass bound (a :: rest) s2
      (b :: r.1, r.2)
    else
      let r := bubblePass bound (b :: rest) s1
      (a :: r.1, r.2)
  | _, l, s => (l, s)

/-- Outer loop of `bubbleSort` (page.tsx lines 253-297): passes with inner
bounds `n-1, n-2, ..., 1`, i.e. the pass for outer index `i` has bound
`n - i - 1`. -/
def bubbleLoop : Nat → List ArrayBar → SortStats → List ArrayBar × SortStats
  | 0, l, s => (l, s)
  | bound + 1, l, s =>
    let r := bubblePass (bound + 1) l s
    bubbleLoop bound r.1 r.2

/-- The whole `bubbleSort` engine in benchmark mode (page.tsx lines 247-310
with `isBenchmark = true`): only the double loop remains. -/
def bubbleSortRun (arr : List ArrayBar) (s : SortStats) : List ArrayBar × SortStats :=
  bubbleLoop (arr.length - 1) arr s

/-! ## Index helpers for the quick/heap embeddings

JS reads `workingArray[k]` on the executed benchmark paths are always in
bounds; the helpers below are total with a `default` fall-back that is never
hit on those paths (the proofs carry the bounds). -/

/-- Total read of position `i`. -/
def getN (l : List ArrayBar) (i : Nat) : ArrayBar := l.getD i default

/-- Write of position `i` (`List.set` is a no-op out of bounds, matching the
fact that the executed benchmark paths never write out of bounds). -/
def setN (l : List ArrayBar) (i : Nat) (x : ArrayBar) : List ArrayBar := l.set i x

/-- The three-statement swap `temp = a[i]; a[i] = a[j]; a[j] = temp`. -/
def swapN (l : List ArrayBar) (i j : Nat) : List ArrayBar :=
  setN (setN l i (getN l j)) j (getN l i)

/-- Read at a JS (possibly negative) index. -/
def getB (l : List ArrayBar) (i : Int) : ArrayBar := getN l i.toNat

/-- Swap at JS indices. -/
def swapB (l : List ArrayBar) (i j : Int) : List ArrayBar := swapN l i.toNat j.toNat

/-! ## Quick sort, benchmark path (page.tsx lines 313-397)

Lomuto partition with the last element as pivot. The boundary `i` starts at
`low - 1` and may be `-1`, so it is an `Int`. The partition loop runs `j`
from `low` to `high - 1`; it is embedded with an explicit countdown
`cnt = high - j` of remaining iterations. -/

/-- The `for (j = low; j < high; j++)` loop of `partition`
(page.tsx lines 322-362, benchmark path). -/
def partitionLoop (pivot : Int) : Nat → Int → Int → List ArrayBar → SortStats →
    List ArrayBar × SortStats × Int
  | 0, i, _j, arr, s => (arr, s, i)
  | cnt + 1, i, j, arr, s =>
    let s1 : SortStats := { s with comparisons := s.comparisons + 1 }
    if (getB arr j).value < pivot then
      let arr1 := swapB arr (i + 1) j
      let s2 : SortStats := { s1 with swaps := s1.swaps + 1 }
      partitionLoop pivot cnt (i + 1) (j + 1) arr1 s2
    else
      partitionLoop pivot cnt i (j + 1) arr s1

/-- The whole `partition(low, high)` (page.tsx lines 318-373): pivot is
`workingArray[high].value`; after the loop the pivot is unconditionally
swapped to position `i + 1` (a self-swap when `i + 1 = high`) and the swap
counter is incremented; returns `(array, stats, i + 1)`. -/
def partitionRun (low high : Int) (arr : List ArrayBar) (s : SortStats) :
    List ArrayBar × SortStats × Int :=
  let pivot := (getB arr high).value
  let r := partitionLoop pivot (high - low).toNat (low - 1) low arr s
  let arr1 := swapB r.1 (r.2.2 + 1) high
  let s1 : SortStats := { r.2.1 with swaps := r.2.1.swaps + 1 }
  (arr1, s1, r.2.2 + 1)

/-- The recursive `quickSortHelper(low, high)` (page.tsx lines 375-382) with
explicit fuel; `quickSortRun` passes fuel that provably suffices. -/
def quickSortHelper : Nat → Int → Int → List ArrayBar → SortStats → List ArrayBar × SortStats
  | 0, _, _, arr, s => (arr, s)
  | fuel + 1, low, high, arr, s =>
    if low < high then
      let r := partitionRun low high arr s
      let r1 := quickSortHelper fuel low (r.2.2 - 1) r.1 r.2.1
      quickSortHelper fuel (r.2.2 + 1) high r1.1 r1.2
    else (arr, s)

/-- The whole `quickSort` engine in benchmark mode (page.tsx lines 313-397
with `isBenchmark = true`): `quickSortHelper(0, length - 1)`. -/
def quickSortRun (arr : List ArrayBar) (s : SortStats) : List ArrayBar × SortStats :=
  quickSortHelper (arr.length + 1) 0 (Int.ofNat arr.length - 1) arr s

/-! ## Merge sort, benchmark path (page.tsx lines 400-495)

`merge(left, mid, right)` slices `L = arr[left..mid]`, `R = arr[mid+1..right]`
and writes the merged run back over `arr[left..right]`; since the write
region is exactly the region the slices came from, the merge is a pure
function of the two runs, and `mergeSortHelper(left, right)` is a pure
function of the segment `arr[left..right]`. The split point
`mid = floor((left + right) / 2)` makes the left run
`(len - 1) / 2 + 1` elements long for a segment of length `len`. -/

/-- One of the two tail-drain `while` loops of `merge` (page.tsx lines
444-470, benchmark path): each leftover element is copied into place with
`isComparing` cleared and counts one swap and no comparison. -/
def mergeDrain : List ArrayBar → SortStats → List ArrayBar × SortStats
  | [], s => ([], s)
  | x :: rest, s =>
    let s1 : SortStats := { s with swaps := s.swaps + 1 }
    let r := mergeDrain rest s1
    ({ x with isComparing := false } :: r.1, r.2)

/-- The main `while (i < n1 && j < n2)` loop of `merge` followed by the two
drain loops (page.tsx lines 413-470, benchmark path). Each iteration counts
one comparison; ties (`L[i].value <= R[j].value`) take the left run's head;
every placement counts one swap. The extra `cnt` argument bounds the
remaining placements (it is passed as `n1 + n2`, which the loops never
exceed) so that the recursion is structural. -/
def mergeLoopRun : Nat → List ArrayBar → List ArrayBar → SortStats → List ArrayBar × SortStats
  | cnt + 1, a :: L, b :: R, s =>
    let s1 : SortStats := { s with comparisons := s.comparisons + 1 }
    if a.value ≤ b.value then
      let s2 : SortStats := { s1 with swaps := s1.swaps + 1 }
      let r := mergeLoopRun cnt L (b :: R) s2
      ({ a with isComparing := false } :: r.1, r.2)
    else
      let s2 : SortStats := { s1 with swaps := s1.swaps + 1 }
      let r := mergeLoopRun cnt (a :: L) R s2
      ({ b with isComparing := false } :: r.1, r.2)
  | _, L, R, s =>
    let rL := mergeDrain L s
    let rR := mergeDrain R rL.2
    (rL.1 ++ rR.1, rR.2)

/-- The recursive `mergeSortHelper(left, right)` (page.tsx lines 472-480) on
the segment `arr[left..right]`, with explicit fuel; the recursion guard
`left < right` is `2 ≤ length`. -/
def mergeSortHelper : Nat → List ArrayBar → SortStats → List ArrayBar × SortStats
  | 0, l, s => (l, s)
  | fuel + 1, l, s =>
    if 2 ≤ l.length then
      let mid1 := (l.length - 1) / 2 + 1
      let r1 := mergeSortHelper fuel (l.take mid1) s
      let r2 := mergeSortHelper fuel (l.drop mid1) r1.2
      mergeLoopRun (r1.1.length + r2.1.length) r1.1 r2.1 r2.2
    else (l, s)

/-- The whole `mergeSort` engine in benchmark mode (page.tsx lines 400-495
with `isBenchmark = true`). -/
def mergeSortRun (arr : List ArrayBar) (s : SortStats) : List ArrayBar × SortStats :=
  mergeSortHelper arr.length arr s

/-! ## Heap sort, benchmark path (page.tsx lines 498-613) -/

/-- The recursive `heapify(n, i)` (page.tsx lines 503-567, benchmark path)
with explicit fuel. Both `comparisons++` statements are unconditional: each
invocation adds 2 whether or not `i` has children inside the boundary `n`.
When a child is larger the two elements are swapped and heapify recurses at
`largest`. -/
def heapifyFuel : Nat → Nat → Nat → List ArrayBar → SortStats → List ArrayBar × SortStats
  | 0, _, _, arr, s => (arr, s)
  | fuel + 1, n, i, arr, s =>
    let left := 2 * i + 1
    let right := 2 * i + 2
    let s1 : SortStats := { s with comparisons := s.comparisons + 1 }
    let largest1 := if left < n ∧ (getN arr left).value > (getN arr i).value then left else i
    let s2 : SortStats := { s1 with comparisons := s1.comparisons + 1 }
    let largest2 := if right < n ∧ (getN arr right).value > (getN arr largest1).value
      then right else largest1
    if largest2 ≠ i then
      let arr1 := swapN arr i largest2
      let s3 : SortStats := { s2 with swaps := s2.swaps + 1 }
      heapifyFuel fuel n largest2 arr1 s3
    else (arr, s2)

/-- The build-heap loop `for (i = floor(length / 2) - 1; i >= 0; i--)`
(page.tsx lines 570-572): `k` counts the remaining iterations, the current
iteration has `i = k - 1`. -/
def buildHeapLoop : Nat → List ArrayBar → SortStats → List ArrayBar × SortStats
  | 0, arr, s => (arr, s)
  | k + 1, arr, s =>
    let r := heapifyFuel (arr.length + 1) arr.length k arr s
    buildHeapLoop k r.1 r.2

/-- The extract loop `for (i = length - 1; i > 0; i--)` (page.tsx lines
575-600, benchmark path): swap the root with position `i`, count one swap,
then `heapify(i, 0)`. -/
def extractLoop : Nat → List ArrayBar → SortStats → List ArrayBar × SortStats
  | 0, arr, s => (arr, s)
  | i + 1, arr, s =>
    let arr1 := swapN arr 0 (i + 1)
    let s1 : SortStats := { s with swaps := s.swaps + 1 }
    let r := heapifyFuel (arr1.length + 1) (i + 1) 0 arr1 s1
    extractLoop i r.1 r.2

/-- The whole `heapSort` engine in benchmark mode (page.tsx lines 498-613
with `isBenchmark = true`). -/
def heapSortRun (arr : List ArrayBar) (s : SortStats) : List ArrayBar × SortStats :=
  let r := buildHeapLoop (arr.length / 2) arr s
  extractLoop (arr.length - 1) r.1 r.2

/-! ## Array generation (page.tsx lines 79-82 and 158-170)

`Math.floor(Math.random() * (MAX_VALUE - MIN_VALUE + 1)) + MIN_VALUE`, with
`Math.random()` modelled as an exact rational in `[0, 1)` drawn from an
oracle (one draw per element, indexed by the loop counter). -/

/-- Constant `ARRAY_SIZE` (page.tsx line 80). -/
def ARRAY_SIZE : Nat := 50

/-- Constant `MIN_VALUE` (page.tsx line 81). -/
def MIN_VALUE : Int := 5

/-- Constant `MAX_VALUE` (page.tsx line 82). -/
def MAX_VALUE : Int := 100

/-- One generated value: `Math.floor(q * (max - min + 1)) + min`. -/
def genValue (mn mx : Int) (q : ℚ) : Int :=
  ⌊q * ((mx - mn + 1 : Int) : ℚ)⌋ + mn

/-- The generation loop of `generateArray` (page.tsx lines 159-167) and of
the benchmark orchestrator's test arrays (page.tsx lines 657-664),
parameterized by the requested size and range: `size` elements, each with a
fresh random draw and all visual flags false. -/
def genList (size : Nat) (mn mx : Int) (rnd : Nat → ℚ) : List ArrayBar :=
  (List.range size).map fun k => ⟨genValue mn mx (rnd k), false, false, false⟩

/-- `generateArray` itself (page.tsx lines 158-170): fixed size
`ARRAY_SIZE` and range `[MIN_VALUE, MAX_VALUE]`. -/
def generateArray (rnd : Nat → ℚ) : List ArrayBar :=
  genList ARRAY_SIZE MIN_VALUE MAX_VALUE rnd

/-! ## Benchmark orchestrator (page.tsx lines 646-703)

`runBenchmarks` loops over the four algorithms and the five sizes; each
(algorithm, size) pair runs an engine inside `try { ... } catch` and on
success pushes `timeElapsed`, `comparisons` and `swaps` onto three arrays;
on a caught failure nothing is pushed. The engine execution (including the
random test array and its timing) is abstracted as a function returning
`Option BenchMeas`, where `none` models a thrown-and-caught error. -/

/-- One per-pair measurement as pushed by `runBenchmarks`
(page.tsx lines 685-687). -/
structure BenchMeas where
  timeElapsed : Nat
  comparisons : Nat
  swaps : Nat
deriving DecidableEq, Repr

/-- Interface `BenchmarkResult` (page.tsx lines 71-77). -/
structure BenchmarkResult where
  algorithm : String
  sizes : List Nat
  times : List Nat
  comparisons : List Nat
  swaps : List Nat
deriving DecidableEq, Repr

/-- The size matrix (page.tsx line 647). -/
def benchSizes : List Nat := [10, 50, 100, 200, 500]

/-- The algorithm list (page.tsx line 648). -/
def benchAlgorithms : List String := ["bubble", "quick", "merge", "heap"]

/-- The inner `for (const size of sizes)` loop of `runBenchmarks`
(page.tsx lines 656-691): on success the three measurements are pushed, on a
caught failure nothing is pushed and the loop continues with the next size.
Returns the three accumulated arrays `(times, comparisons, swaps)`. -/
def benchSizeLoop (engine : String → Nat → Option BenchMeas) (alg : String) :
    List Nat → List Nat × List Nat × List Nat
  | [] => ([], [], [])
  | size :: rest =>
    match engine alg size with
    | some m =>
      let r := benchSizeLoop engine alg rest
      (m.timeElapsed :: r.1, m.comparisons :: r.2.1, m.swaps :: r.2.2)
    | none => benchSizeLoop engine alg rest

/-- The whole `runBenchmarks` (page.tsx lines 646-703): one
`BenchmarkResult` per algorithm, `sizes` always the full matrix. -/
def runBenchmarks (engine : String → Nat → Option BenchMeas) : List BenchmarkResult :=
  benchAlgorithms.map fun alg =>
    let r := benchSizeLoop engine alg benchSizes
    { algorithm := alg, sizes := benchSizes, times := r.1,
      comparisons := r.2.1, swaps := r.2.2 }

/-! ## Counting helpers used by the claims -/

/-- Number of `heapify` invocations performed by `heapifyFuel fuel n i arr`
(the control flow of `heapify` depends only on the array, never on the
stats). -/
def heapifyCalls : Nat → Nat → Nat → List ArrayBar → Nat
  | 0, _, _, _ => 0
  | fuel + 1, n, i, arr =>
    let left := 2 * i + 1
    let right := 2 * i + 2
    let largest1 := if left < n ∧ (getN arr left).value > (getN arr i).value then left else i
    let largest2 := if right < n ∧ (getN arr right).value > (getN arr largest1).value
      then right else largest1
    if largest2 ≠ i then 1 + heapifyCalls fuel n largest2 (swapN arr i largest2)
    else 1

/-- Number of `partition` calls performed by
`quickSortHelper fuel low high arr s`. -/
def quickCalls : Nat → Int → Int → List ArrayBar → SortStats → Nat
  | 0, _, _, _, _ => 0
  | fuel + 1, low, high, arr, s =>
    if low < high then
      let r := partitionRun low high arr s
      let r1 := quickSortHelper fuel low (r.2.2 - 1) r.1 r.2.1
      1 + quickCalls fuel low (r.2.2 - 1) r.1 r.2.1 +
        quickCalls fuel (r.2.2 + 1) high r1.1 r1.2
    else 0

/-! ## Worst-case operation counts for n = 5

The "theoretical worst case for n = 5" of an algorithm's counter is read as
the maximum of that counter over all 120 orderings of five distinct values,
here the permutations of `[1, 2, 3, 4, 5]`. -/

/-- Maximum of a list of naturals. -/
def natMax (l : List Nat) : Nat := l.foldr max 0

/-- Worst-case comparison count of the quick sort engine over all orderings
of five distinct values. -/
def quickWorstComparisons5 : Nat :=
  natMax ((List.permutations' ([1, 2, 3, 4, 5] : List Int)).map
    fun p => (quickSortRun (mkBars p) ⟨0, 0⟩).2.comparisons)

/-- Worst-case swap count of the quick sort engine over all orderings of
five distinct values. -/
def quickWorstSwaps5 : Nat :=
  natMax ((List.permutations' ([1, 2, 3, 4, 5] : List Int)).map
    fun p => (quickSortRun (mkBars p) ⟨0, 0⟩).2.swaps)

/-- Worst-case comparison count of the heap sort engine over all orderings
of five distinct values. -/
def heapWorstComparisons5 : Nat :=
  natMax ((List.permutations' ([1, 2, 3, 4, 5] : List Int)).map
    fun p => (heapSortRun (mkBars p) ⟨0, 0⟩).2.comparisons)

/-- Worst-case swap count of the heap sort engine over all orderings of five
distinct values. -/
def heapWorstSwaps5 : Nat :=
  natMax ((List.permutations' ([1, 2, 3, 4, 5] : List Int)).map
    fun p => (heapSortRun (mkBars p) ⟨0, 0⟩).2.swaps)

/-- A concrete engine behavior for exercising the orchestrator's `catch`
path: the pair (bubble, 10) throws, every other pair succeeds and reports
its size as both measured time and both counters. -/
def engineCE : String → Nat → Option BenchMeas := fun alg size =>
  if alg = "bubble" ∧ size = 10 then none else some ⟨size, size, size⟩

/-! ## Full dual-mode engines (interactive and benchmark)

The same engines with the `isBenchmark` flag kept as a parameter, so that
both code paths of the source are represented. The interactive-only steps
that touch the array are the visual-flag writes; a JS write
`workingArray[k].flag = v` throws a `TypeError` when `workingArray[k]` is
`undefined`, so flag writes are modelled in `Option`, failing exactly when
the index is out of bounds. Purely external interactive effects —
`setArray` publication, `sleep` pacing and pause polling, `updateStats`,
sound, confetti, `setCurrentStep`, history — touch neither the working
array nor the counters and have no counterpart in the embedding. -/

/-- A JS flag write `workingArray[i].flag = v`: fails iff the slot is
undefined. -/
def setFlagAt (l : List ArrayBar) (i : Nat) (f : ArrayBar → ArrayBar) :
    Option (List ArrayBar) :=
  if i < l.length then some (l.set i (f (getN l i))) else none

/-- A JS flag write at a possibly negative index. -/
def setFlagAtI (l : List ArrayBar) (i : Int) (f : ArrayBar → ArrayBar) :
    Option (List ArrayBar) :=
  if 0 ≤ i ∧ i.toNat < l.length then some (l.set i.toNat (f (getN l i.toNat))) else none

/-- The guarded write `if (workingArray[i]) workingArray[i].isSwapping = ...`
(page.tsx line 359): skipped, not thrown, when the slot is undefined. -/
def setFlagIfPresent (l : List ArrayBar) (i : Int) (f : ArrayBar → ArrayBar) :
    List ArrayBar :=
  if 0 ≤ i ∧ i.toNat < l.length then l.set i.toNat (f (getN l i.toNat)) else l

/-- Dual-mode inner bubble pass (page.tsx lines 255-295). The flag writes of
the interactive path act on the two adjacent elements being compared, which
the structural walk carries directly, so they are total here. -/
def bubblePassFull (isBenchmark : Bool) :
    Nat → List ArrayBar → SortStats → List ArrayBar × SortStats
  | bound + 1, a :: b :: rest, s =>
    let a1 := if !isBenchmark then { a with isComparing := true } else a
    let b1 := if !isBenchmark then { b with isComparing := true } else b
    let s1 : SortStats := { s with comparisons := s.comparisons + 1 }
    if a1.value > b1.value then
      let a2 := if !isBenchmark then { a1 with isSwapping := true } else a1
      let b2 := if !isBenchmark then { b1 with isSwapping := true } else b1
      let s2 : SortStats := { s1 with swaps := s1.swaps + 1 }
      let b3 := if !isBenchmark then { b2 with isComparing := false, isSwapping := false } else b2
      let a3 := if !isBenchmark then { a2 with isComparing := false, isSwapping := false } else a2
      let r := bubblePassFull isBenchmark bound (a3 :: rest) s2
      (b3 :: r.1, r.2)
    else
      let a2 := if !isBenchmark then { a1 with isComparing := false, isSwapping := false } else a1
      let b2 := if !isBenchmark then { b1 with isComparing := false, isSwapping := false } else b1
      let r := bubblePassFull isBenchmark bound (b2 :: rest) s1
      (a2 :: r.1, r.2)
  | _, l, s => (l, s)

/-- Dual-mode outer bubble loop (page.tsx lines 253-297); the interactive
path marks `workingArray[n - i - 1].isSorted = true` after each pass. -/
def bubbleLoopFull (isBenchmark : Bool) :
    Nat → List ArrayBar → SortStats → Option (List ArrayBar × SortStats)
  | 0, l, s => some (l, s)
  | bound + 1, l, s => do
    let r := bubblePassFull isBenchmark (bound + 1) l s
    let l1 ← if isBenchmark then pure r.1 else
      setFlagAt r.1 (bound + 1) fun x => { x with isSorted := true }
    bubbleLoopFull isBenchmark bound l1 r.2

/-- Dual-mode `bubbleSort` (page.tsx lines 247-310); the interactive path
finishes with `workingArray[0].isSorted = true`, which throws on an empty
array. -/
def bubbleSortFull (isBenchmark : Bool) (arr : List ArrayBar) (s : SortStats) :
    Option (List ArrayBar × SortStats) := do
  let r ← bubbleLoopFull isBenchmark (arr.length - 1) arr s
  if isBenchmark then pure r
  else do
    let l1 ← setFlagAt r.1 0 fun x => { x with isSorted := true }
    pure (l1, r.2)

/-- Interactive block of page.tsx lines 332-335: mark the probed slot and the
pivot slot as comparing. -/
def quickMarkCompare (arr : List ArrayBar) (j high : Int) : Option (List ArrayBar) := do
  let c1 ← setFlagAtI arr j fun x => { x with isComparing := true }
  setFlagAtI c1 high fun x => { x with isComparing := true }

/-- Interactive block of page.tsx lines 341-343: mark the two slots about to
be swapped. -/
def quickMarkSwap (arr : List ArrayBar) (i1 j : Int) : Option (List ArrayBar) := do
  let c1 ← setFlagAtI arr i1 fun x => { x with isSwapping := true }
  setFlagAtI c1 j fun x => { x with isSwapping := true }

/-- Interactive block of page.tsx lines 353-361: clear the comparing flags on
the probed and pivot slots and the swapping flags (the write at `i1` is the
guarded one of line 359). -/
def quickClearFlags (arr : List ArrayBar) (j high i1 : Int) : Option (List ArrayBar) := do
  let c1 ← setFlagAtI arr j fun x => { x with isComparing := false }
  let c2 ← setFlagAtI c1 high fun x => { x with isComparing := false }
  let c3 := setFlagIfPresent c2 i1 fun x => { x with isSwapping := false }
  setFlagAtI c3 j fun x => { x with isSwapping := false }

/-- Dual-mode partition loop (page.tsx lines 322-362). -/
def partitionLoopFull (isBenchmark : Bool) (pivot high : Int) :
    Nat → Int → Int → List ArrayBar → SortStats → Option (List ArrayBar × SortStats × Int)
  | 0, i, _j, arr, s => some (arr, s, i)
  | cnt + 1, i, j, arr, s => do
    let arr1 ← if isBenchmark then pure arr else quickMarkCompare arr j high
    let s1 : SortStats := { s with comparisons := s.comparisons + 1 }
    if (getB arr1 j).value < pivot then
      let i1 := i + 1
      let arr2 ← if isBenchmark then pure arr1 else quickMarkSwap arr1 i1 j
      let arr3 := swapB arr2 i1 j
      let s2 : SortStats := { s1 with swaps := s1.swaps + 1 }
      let arr4 ← if isBenchmark then pure arr3 else quickClearFlags arr3 j high i1
      partitionLoopFull isBenchmark pivot high cnt i1 (j + 1) arr4 s2
    else
      let arr4 ← if isBenchmark then pure arr1 else quickClearFlags arr1 j high i
      partitionLoopFull isBenchmark pivot high cnt i (j + 1) arr4 s1

/-- Dual-mode `partition` (page.tsx lines 318-373). -/
def partitionRunFull (isBenchmark : Bool) (low high : Int) (arr : List ArrayBar)
    (s : SortStats) : Option (List ArrayBar × SortStats × Int) := do
  let pivot := (getB arr high).value
  let r ← partitionLoopFull isBenchmark pivot high (high - low).toNat (low - 1) low arr s
  let arr1 := swapB r.1 (r.2.2 + 1) high
  let s1 : SortStats := { r.2.1 with swaps := r.2.1.swaps + 1 }
  pure (arr1, s1, r.2.2 + 1)

/-- Dual-mode `quickSortHelper` (page.tsx lines 375-382). -/
def quickSortHelperFull (isBenchmark : Bool) :
    Nat → Int → Int → List ArrayBar → SortStats → Option (List ArrayBar × SortStats)
  | 0, _, _, arr, s => some (arr, s)
  | fuel + 1, low, high, arr, s =>
    if low < high then do
      let r ← partitionRunFull isBenchmark low high arr s
      let r1 ← quickSortHelperFull isBenchmark fuel low (r.2.2 - 1) r.1 r.2.1
      quickSortHelperFull isBenchmark fuel (r.2.2 + 1) high r1.1 r1.2
    else some (arr, s)

/-- Dual-mode `quickSort` (page.tsx lines 313-397); the interactive path
ends with `forEach(item => item.isSorted = true)`, total even on an empty
array. -/
def quickSortFull (isBenchmark : Bool) (arr : List ArrayBar) (s : SortStats) :
    Option (List ArrayBar × SortStats) := do
  let r ← quickSortHelperFull isBenchmark (arr.length + 1) 0 (Int.ofNat arr.length - 1) arr s
  if isBenchmark then pure r
  else pure (r.1.map (fun x => { x with isSorted := true }), r.2)

/-- Dual-mode merge loop (page.tsx lines 413-470). The interactive path sets
`workingArray[k].isComparing = true` on the slot about to be overwritten;
the `stale` argument tracks the not-yet-overwritten tail of the segment
(whose head is position `k`), so that transient write is represented even
though the same iteration always overwrites it. It is in bounds whenever
the main loop runs (the segment still has unplaced elements), so the
unreachable empty case falls through. The drain loops perform no
interactive array writes. The `cnt` argument bounds the remaining
placements as in `mergeLoopRun`. -/
def mergeLoopFull (isBenchmark : Bool) :
    Nat → List ArrayBar → List ArrayBar → List ArrayBar → SortStats →
      List ArrayBar × SortStats
  | cnt + 1, stale, a :: L, b :: R, s =>
    let stale1 := if isBenchmark then stale else
      match stale with
      | c :: cs => { c with isComparing := true } :: cs
      | [] => []
    let s1 : SortStats := { s with comparisons := s.comparisons + 1 }
    if a.value ≤ b.value then
      let s2 : SortStats := { s1 with swaps := s1.swaps + 1 }
      let r := mergeLoopFull isBenchmark cnt (stale1.drop 1) L (b :: R) s2
      ({ a with isComparing := false } :: r.1, r.2)
    else
      let s2 : SortStats := { s1 with swaps := s1.swaps + 1 }
      let r := mergeLoopFull isBenchmark cnt (stale1.drop 1) (a :: L) R s2
      ({ b with isComparing := false } :: r.1, r.2)
  | _, _stale, L, R, s =>
    let rL := mergeDrain L s
    let rR := mergeDrain R rL.2
    (rL.1 ++ rR.1, rR.2)

/-- Dual-mode `mergeSortHelper` (page.tsx lines 472-480); at merge time the
not-yet-overwritten segment content is the two sorted halves in place. -/
def mergeSortHelperFull (isBenchmark : Bool) :
    Nat → List ArrayBar → SortStats → List ArrayBar × SortStats
  | 0, l, s => (l, s)
  | fuel + 1, l, s =>
    if 2 ≤ l.length then
      let mid1 := (l.length - 1) / 2 + 1
      let r1 := mergeSortHelperFull isBenchmark fuel (l.take mid1) s
      let r2 := mergeSortHelperFull isBenchmark fuel (l.drop mid1) r1.2
      mergeLoopFull isBenchmark (r1.1.length + r2.1.length) (r1.1 ++ r2.1) r1.1 r2.1 r2.2
    else (l, s)

/-- Dual-mode `mergeSort` (page.tsx lines 400-495); the interactive path
ends with `forEach(item => item.isSorted = true)`, total even on an empty
array, so merge sort never fails in either mode. -/
def mergeSortFull (isBenchmark : Bool) (arr : List ArrayBar) (s : SortStats) :
    Option (List ArrayBar × SortStats) :=
  let r := mergeSortHelperFull isBenchmark arr.length arr s
  if isBenchmark then some r
  else some (r.1.map (fun x => { x with isSorted := true }), r.2)

/-- Interactive block of page.tsx lines 510-514: mark the node and its
in-boundary children as comparing. -/
def heapMarkCompare (arr : List ArrayBar) (i left right n : Nat) :
    Option (List ArrayBar) := do
  let c1 ← setFlagAt arr i fun x => { x with isComparing := true }
  let c2 ← if left < n then setFlagAt c1 left (fun x => { x with isComparing := true })
    else pure c1
  if right < n then setFlagAt c2 right (fun x => { x with isComparing := true })
  else pure c2

/-- Interactive block of page.tsx lines 535-537: mark the node and the larger
child as swapping. -/
def heapMarkSwap (arr : List ArrayBar) (i largest : Nat) : Option (List ArrayBar) := do
  let c1 ← setFlagAt arr i fun x => { x with isSwapping := true }
  setFlagAt c1 largest fun x => { x with isSwapping := true }

/-- Interactive block of page.tsx lines 547-549: clear the swapping flags
after the swap. -/
def heapClearSwap (arr : List ArrayBar) (i largest : Nat) : Option (List ArrayBar) := do
  let c1 ← setFlagAt arr i fun x => { x with isSwapping := false }
  setFlagAt c1 largest fun x => { x with isSwapping := false }

/-- Interactive block of page.tsx lines 557-561: clear the comparing flags on
the node and its in-boundary children. -/
def heapClearCompare (arr : List ArrayBar) (i left right n : Nat) :
    Option (List ArrayBar) := do
  let c1 ← setFlagAt arr i fun x => { x with isComparing := false }
  let c2 ← if left < n then setFlagAt c1 left (fun x => { x with isComparing := false })
    else pure c1
  if right < n then setFlagAt c2 right (fun x => { x with isComparing := false })
  else pure c2

/-- Dual-mode `heapify` (page.tsx lines 503-567); the interactive flag
clears on `i` and its in-boundary children run after the recursion
returns. -/
def heapifyFull (isBenchmark : Bool) :
    Nat → Nat → Nat → List ArrayBar → SortStats → Option (List ArrayBar × SortStats)
  | 0, _, _, arr, s => some (arr, s)
  | fuel + 1, n, i, arr, s => do
    let left := 2 * i + 1
    let right := 2 * i + 2
    let arr1 ← if isBenchmark then pure arr else heapMarkCompare arr i left right n
    let s1 : SortStats := { s with comparisons := s.comparisons + 1 }
    let largest1 := if left < n ∧ (getN arr1 left).value > (getN arr1 i).value then left else i
    let s2 : SortStats := { s1 with comparisons := s1.comparisons + 1 }
    let largest2 := if right < n ∧ (getN arr1 right).value > (getN arr1 largest1).value
      then right else largest1
    let rOut ← (if largest2 ≠ i then do
        let arr2 ← if isBenchmark then pure arr1 else heapMarkSwap arr1 i largest2
        let arr3 := swapN arr2 i largest2
        let s3 : SortStats := { s2 with swaps := s2.swaps + 1 }
        let arr4 ← if isBenchmark then pure arr3 else heapClearSwap arr3 i largest2
        heapifyFull isBenchmark fuel n largest2 arr4 s3
      else pure (arr1, s2))
    if isBenchmark then pure rOut else do
      let c3 ← heapClearCompare rOut.1 i left right n
      pure (c3, rOut.2)

/-- Dual-mode build-heap loop (page.tsx lines 570-572). -/
def buildHeapLoopFull (isBenchmark : Bool) :
    Nat → List ArrayBar → SortStats → Option (List ArrayBar × SortStats)
  | 0, arr, s => some (arr, s)
  | k + 1, arr, s => do
    let r ← heapifyFull isBenchmark (arr.length + 1) arr.length k arr s
    buildHeapLoopFull isBenchmark k r.1 r.2

/-- Interactive block of page.tsx lines 580-582: mark the root and the
boundary slot as swapping. -/
def extractMarkSwap (arr : List ArrayBar) (i1 : Nat) : Option (List ArrayBar) := do
  let c1 ← setFlagAt arr 0 fun x => { x with isSwapping := true }
  setFlagAt c1 i1 fun x => { x with isSwapping := true }

/-- Interactive block of page.tsx lines 588-592: mark the extracted slot
sorted and clear the swapping flags. -/
def extractSettle (arr : List ArrayBar) (i1 : Nat) : Option (List ArrayBar) := do
  let c1 ← setFlagAt arr i1 fun x => { x with isSorted := true }
  let c2 ← setFlagAt c1 0 fun x => { x with isSwapping := false }
  setFlagAt c2 i1 fun x => { x with isSwapping := false }

/-- Dual-mode extract loop (page.tsx lines 575-600); the interactive path
marks each extracted boundary position sorted immediately. -/
def extractLoopFull (isBenchmark : Bool) :
    Nat → List ArrayBar → SortStats → Option (List ArrayBar × SortStats)
  | 0, arr, s => some (arr, s)
  | i + 1, arr, s => do
    let arr1 ← if isBenchmark then pure arr else extractMarkSwap arr (i + 1)
    let arr2 := swapN arr1 0 (i + 1)
    let s1 : SortStats := { s with swaps := s.swaps + 1 }
    let arr3 ← if isBenchmark then pure arr2 else extractSettle arr2 (i + 1)
    let r ← heapifyFull isBenchmark (arr3.length + 1) (i + 1) 0 arr3 s1
    extractLoopFull isBenchmark i r.1 r.2

/-- Dual-mode `heapSort` (page.tsx lines 498-613); the interactive path
finishes with `workingArray[0].isSorted = true`, which throws on an empty
array. -/
def heapSortFull (isBenchmark : Bool) (arr : List ArrayBar) (s : SortStats) :
    Option (List ArrayBar × SortStats) := do
  let r ← buildHeapLoopFull isBenchmark (arr.length / 2) arr s
  let r1 ← extractLoopFull isBenchmark (arr.length - 1) r.1 r.2
  if isBenchmark then pure r1
  else do
    let l1 ← setFlagAt r1.1 0 fun x => { x with isSorted := true }
    pure (l1, r1.2)

/-- Descendant relation of the implicit binary heap layout: `Desc i j` holds
when array slot `j` lies in the subtree rooted at slot `i` (children of `j`
are `2j+1` and `2j+2`). Used to delimit which slots `heapify` can touch. -/
inductive Desc : Nat → Nat → Prop
  | refl (i : Nat) : Desc i i
  | left {i j : Nat} : Desc i j → Desc i (2 * j + 1)
  | right {i j : Nat} : Desc i j → Desc i (2 * j + 2)

/-- Max-heap node property at slot `j` for boundary `n`: each child inside
the boundary is no larger than its parent. -/
def NodeOK (arr : List ArrayBar) (n j : Nat) : Prop :=
  (2 * j + 1 < n → (getN arr (2 * j + 1)).value ≤ (getN arr j).value) ∧
  (2 * j + 2 < n → (getN arr (2 * j + 2)).value ≤ (getN arr j).value)

/-! ## Basic lemmas -/

theorem bubblePass_length (k : Nat) : ∀ (l : List ArrayBar) (s : SortStats),
    (bubblePass k l s).1.length = l.length := by
  induction k with
  | zero => intro l s; rfl
  | succ k ih =>
    intro l s
    match l with
    | [] => rfl
    | [a] => rfl
    | a :: b :: rest =>
      simp only [bubblePass]
      split <;> simp [ih]

theorem bubblePass_comparisons (k : Nat) : ∀ (l : List ArrayBar) (s : SortStats),
    k < l.length → (bubblePass k l s).2.comparisons = s.comparisons + k := by
  induction k with
  | zero => intro l s _h; rfl
  | succ k ih =>
    intro l s h
    match l, h with
    | a :: b :: rest, h =>
      simp only [bubblePass]
      split
      · rw [ih (a :: rest) _ (by simp at h ⊢; omega)]
        simp; omega
      · rw [ih (b :: rest) _ (by simp at h ⊢; omega)]
        simp; omega

theorem bubbleLoop_comparisons (k : Nat) : ∀ (l : List ArrayBar) (s : SortStats),
    k < l.length →
    (bubbleLoop k l s).2.comparisons = s.comparisons + k * (k + 1) / 2 := by
  induction k with
  | zero => intro l s _h; simp [bubbleLoop]
  | succ k ih =>
    intro l s h
    simp only [bubbleLoop]
    have hlen := bubblePass_length (k + 1) l s
    have hcmp := bubblePass_comparisons (k + 1) l s h
    have hk : k < (bubblePass (k + 1) l s).1.length := by omega
    rw [ih _ _ hk, hcmp]
    have heven : k * (k + 1) % 2 = 0 := Nat.even_iff.mp (Nat.even_mul_succ_self k)
    have hexp : (k + 1) * (k + 1 + 1) = k * (k + 1) + 2 * (k + 1) := by ring
    omega

theorem bubbleSortRun_comparisons (arr : List ArrayBar) (s : SortStats) :
    (bubbleSortRun arr s).2.comparisons =
      s.comparisons + arr.length * (arr.length - 1) / 2 := by
  rcases harr : arr.length with _ | n
  · rw [List.length_eq_zero] at harr
    subst harr
    simp [bubbleSortRun, bubbleLoop]
  · unfold bubbleSortRun
    rw [harr]
    simp only [Nat.succ_sub_one]
    rw [bubbleLoop_comparisons n arr s (by omega), Nat.mul_comm]

theorem mergeDrain_stats (L : List ArrayBar) : ∀ (s : SortStats),
    (mergeDrain L s).2 = ⟨s.comparisons, s.swaps + L.length⟩ := by
  induction L with
  | nil => intro s; simp [mergeDrain]
  | cons x rest ih =>
    intro s
    simp only [mergeDrain, ih]
    simp; omega

theorem heapifyFuel_comparisons (fuel : Nat) : ∀ (n i : Nat) (arr : List ArrayBar)
    (s : SortStats),
    (heapifyFuel fuel n i arr s).2.comparisons =
      s.comparisons + 2 * heapifyCalls fuel n i arr := by
  induction fuel with
  | zero => intro n i arr s; simp [heapifyFuel, heapifyCalls]
  | succ fuel ih =>
    intro n i arr s
    simp only [heapifyFuel, heapifyCalls]
    split <;> split <;> split
    all_goals try rw [ih]
    all_goals try dsimp only
    all_goals omega

theorem heapifyFuel_leaf (fuel n i : Nat) (arr : List ArrayBar) (s : SortStats)
    (h : n ≤ 2 * i + 1) :
    heapifyFuel (fuel + 1) n i arr s = (arr, ⟨s.comparisons + 2, s.swaps⟩) := by
  simp only [heapifyFuel]
  have h1 : ¬ (2 * i + 1 < n ∧ (getN arr (2 * i + 1)).value > (getN arr i).value) :=
    fun hc => absurd hc.1 (Nat.not_lt.2 h)
  rw [if_neg h1]
  have h2 : ¬ (2 * i + 2 < n ∧ (getN arr (2 * i + 2)).value > (getN arr i).value) :=
    fun hc => absurd hc.1 (Nat.not_lt.2 (by omega))
  rw [if_neg h2, if_neg (by simp)]

/-! ## Claims C3, C4, C10 -/

/-- C3: merge sort on `[2,1]` performs exactly 1 comparison (and 2 counted
placements); on `[1,1]` it performs exactly one comparison with both
placements counted as swaps, returns `[1,1]`, and resolves the tie by taking
the left run's head first (checked with flag-tagged duplicate values, which
the placements preserve apart from clearing `isComparing`); and every
tail-drain step increments the swap counter by one per drained element and
never the comparison counter. -/
theorem claimC3_merge_counts :
    (mergeSortRun (mkBars [2, 1]) ⟨0, 0⟩).2 = ⟨1, 2⟩ ∧
    (vals (mergeSortRun (mkBars [1, 1]) ⟨0, 0⟩).1 = [1, 1] ∧
      (mergeSortRun (mkBars [1, 1]) ⟨0, 0⟩).2 = ⟨1, 2⟩) ∧
    (mergeSortRun [⟨1, false, true, false⟩, ⟨1, false, false, false⟩] ⟨0, 0⟩).1 =
      [⟨1, false, true, false⟩, ⟨1, false, false, false⟩] ∧
    ∀ (L : List ArrayBar) (s : SortStats),
      (mergeDrain L s).2.comparisons = s.comparisons ∧
      (mergeDrain L s).2.swaps = s.swaps + L.length :=
  ⟨by decide, ⟨by decide, by decide⟩, by decide,
    fun L s => by rw [mergeDrain_stats]; exact ⟨rfl, rfl⟩⟩

/-- C4: bubble sort on `[5,3,8,1]` returns `[1,3,5,8]` with exactly 6
comparisons and exactly 4 swaps; in general the double loop always performs
`n * (n - 1) / 2` comparisons regardless of input order. -/
theorem claimC4_bubble_counts :
    vals (bubbleSortRun (mkBars [5, 3, 8, 1]) ⟨0, 0⟩).1 = [1, 3, 5, 8] ∧
    (bubbleSortRun (mkBars [5, 3, 8, 1]) ⟨0, 0⟩).2 = ⟨6, 4⟩ ∧
    ∀ (arr : List ArrayBar) (s : SortStats),
      (bubbleSortRun arr s).2.comparisons =
        s.comparisons + arr.length * (arr.length - 1) / 2 :=
  ⟨by decide, by decide, bubbleSortRun_comparisons⟩

/-- C10: each `heapify` invocation adds exactly 2 to the comparison counter
(so a whole call tree adds twice the number of invocations), and an
invocation on a childless node — in particular any leaf, `n ≤ 2*i+1` —
leaves the array and swap counter untouched and adds exactly 2. -/
theorem claimC10_heapify_comparisons :
    (∀ (fuel n i : Nat) (arr : List ArrayBar) (s : SortStats),
      (heapifyFuel fuel n i arr s).2.comparisons =
        s.comparisons + 2 * heapifyCalls fuel n i arr) ∧
    ∀ (fuel n i : Nat) (arr : List ArrayBar) (s : SortStats), n ≤ 2 * i + 1 →
      heapifyFuel (fuel + 1) n i arr s = (arr, ⟨s.comparisons + 2, s.swaps⟩) :=
  ⟨heapifyFuel_comparisons, fun fuel n i arr s h => heapifyFuel_leaf fuel n i arr s h⟩

/-- Witness for C10: a leaf invocation on the one-element heap `[3]` adds
exactly two comparisons and nothing else. -/
theorem claimC10_witness :
    1 ≤ 2 * 0 + 1 ∧ heapifyFuel 1 1 0 (mkBars [3]) ⟨0, 0⟩ = (mkBars [3], ⟨2, 0⟩) :=
  ⟨by decide, claimC10_heapify_comparisons.2 0 1 0 (mkBars [3]) ⟨0, 0⟩ (by decide)⟩

/-! ## Lemmas for C9 (partition swap accounting) -/

theorem partitionLoop_swaps_le (pivot : Int) (cnt : Nat) : ∀ (i j : Int)
    (arr : List ArrayBar) (s : SortStats),
    s.swaps ≤ (partitionLoop pivot cnt i j arr s).2.1.swaps := by
  induction cnt with
  | zero => intro i j arr s; exact Nat.le_refl _
  | succ cnt ih =>
    intro i j arr s
    simp only [partitionLoop]
    split
    · exact Nat.le_trans (by simp) (ih _ _ _ _)
    · exact Nat.le_trans (by simp) (ih _ _ _ _)

theorem partitionRun_swaps_succ (low high : Int) (arr : List ArrayBar) (s : SortStats) :
    s.swaps + 1 ≤ (partitionRun low high arr s).2.1.swaps := by
  unfold partitionRun
  have h := partitionLoop_swaps_le ((getB arr high).value) (high - low).toNat
    (low - 1) low arr s
  dsimp only
  omega

theorem quickSortHelper_swaps (fuel : Nat) : ∀ (low high : Int) (arr : List ArrayBar)
    (s : SortStats),
    s.swaps + quickCalls fuel low high arr s ≤ (quickSortHelper fuel low high arr s).2.swaps := by
  induction fuel with
  | zero => intro low high arr s; simp [quickSortHelper, quickCalls]
  | succ fuel ih =>
    intro low high arr s
    simp only [quickSortHelper, quickCalls]
    split
    · have h1 := partitionRun_swaps_succ low high arr s
      have h2 := ih low ((partitionRun low high arr s).2.2 - 1)
        (partitionRun low high arr s).1 (partitionRun low high arr s).2.1
      have h3 := ih ((partitionRun low high arr s).2.2 + 1) high
        (quickSortHelper fuel low ((partitionRun low high arr s).2.2 - 1)
          (partitionRun low high arr s).1 (partitionRun low high arr s).2.1).1
        (quickSortHelper fuel low ((partitionRun low high arr s).2.2 - 1)
          (partitionRun low high arr s).1 (partitionRun low high arr s).2.1).2
      omega
    · simp

theorem quickSortRun_swaps_pos (arr : List ArrayBar) (s : SortStats)
    (h : 2 ≤ arr.length) :
    s.swaps + 1 ≤ (quickSortRun arr s).2.swaps := by
  obtain ⟨m, hm⟩ : ∃ m, arr.length = m + 2 := ⟨arr.length - 2, by omega⟩
  have h1 := quickSortHelper_swaps (arr.length + 1) 0 (Int.ofNat arr.length - 1) arr s
  have h2 : 1 ≤ quickCalls (arr.length + 1) 0 (Int.ofNat arr.length - 1) arr s := by
    rw [hm]
    simp only [quickCalls]
    rw [if_pos]
    · omega
    · simp only [Int.ofNat_eq_natCast]
      omega
  unfold quickSortRun
  omega

/-! ## Lemmas for C5 (worst-case maxima) -/

theorem le_natMax_of_mem {x : Nat} : ∀ {l : List Nat}, x ∈ l → x ≤ natMax l := by
  intro l
  induction l with
  | nil => intro h; cases h
  | cons a t ih =>
    intro h
    rcases List.mem_cons.mp h with h | h
    · subst h; exact Nat.le_max_left _ _  |>.trans_eq rfl
    · exact Nat.le_trans (ih h) (Nat.le_max_right _ _)

/-! ## Claims C9 and C5 -/

/-- C9: every `partition` call increments the swap counter at least once
(the pivot placement is unconditional, a self-swap when `i + 1 = high`);
the swap counter of the whole quick sort exceeds its initial value by at
least the number of partition calls; hence on any array of length at least
2 — in particular an already-sorted one — the reported swap count is
positive. On the sorted input `[1,2,3,4,5]` the engine makes 4 partition
calls and reports 14 swaps. -/
theorem claimC9_partition_swaps :
    (∀ (low high : Int) (arr : List ArrayBar) (s : SortStats),
      s.swaps + 1 ≤ (partitionRun low high arr s).2.1.swaps) ∧
    (∀ (fuel : Nat) (low high : Int) (arr : List ArrayBar) (s : SortStats),
      s.swaps + quickCalls fuel low high arr s ≤
        (quickSortHelper fuel low high arr s).2.swaps) ∧
    (∀ (arr : List ArrayBar) (s : SortStats), 2 ≤ arr.length →
      s.swaps + 1 ≤ (quickSortRun arr s).2.swaps) ∧
    quickCalls 6 0 4 (mkBars [1, 2, 3, 4, 5]) ⟨0, 0⟩ = 4 ∧
    (quickSortRun (mkBars [1, 2, 3, 4, 5]) ⟨0, 0⟩).2.swaps = 14 :=
  ⟨partitionRun_swaps_succ, quickSortHelper_swaps, quickSortRun_swaps_pos,
    by decide, by decide⟩

/-- Witness for C9: on the already-sorted two-element array `[1,2]` the
quick sort engine still reports at least one swap. -/
theorem claimC9_witness :
    2 ≤ (mkBars [1, 2]).length ∧
    (⟨0, 0⟩ : SortStats).swaps + 1 ≤ (quickSortRun (mkBars [1, 2]) ⟨0, 0⟩).2.swaps :=
  ⟨by decide, claimC9_partition_swaps.2.2.1 (mkBars [1, 2]) ⟨0, 0⟩ (by decide)⟩

/-- C5 counterexample: the claim asserts comparison and swap counts strictly
below the theoretical n = 5 worst case (the maximum over all 120 orderings
of five distinct values) for both engines on `[1,2,3,4,5]`; quick sort
refutes it — the already-sorted input is exactly the Lomuto worst case, so
its counts equal the maxima instead of lying strictly below them. -/
theorem claimC5_counterexample :
    ¬ ((quickSortRun (mkBars [1, 2, 3, 4, 5]) ⟨0, 0⟩).2.comparisons < quickWorstComparisons5 ∧
       (quickSortRun (mkBars [1, 2, 3, 4, 5]) ⟨0, 0⟩).2.swaps < quickWorstSwaps5) := by
  decide

/-- C5 (amended): on the already-sorted input `[1,2,3,4,5]` both engines
terminate and return the same value order; heap sort's comparison and swap
counts (24 and 10) are strictly below its n = 5 worst case, while quick
sort's counts (10 and 14) exactly attain its n = 5 worst case; and for
every ordering of these five values the counts are bounded by the
respective maxima. -/
theorem claimC5_sorted_input_bounds :
    vals (quickSortRun (mkBars [1, 2, 3, 4, 5]) ⟨0, 0⟩).1 = [1, 2, 3, 4, 5] ∧
    vals (heapSortRun (mkBars [1, 2, 3, 4, 5]) ⟨0, 0⟩).1 = [1, 2, 3, 4, 5] ∧
    ((heapSortRun (mkBars [1, 2, 3, 4, 5]) ⟨0, 0⟩).2.comparisons = 24 ∧
      (heapSortRun (mkBars [1, 2, 3, 4, 5]) ⟨0, 0⟩).2.comparisons < heapWorstComparisons5 ∧
      (heapSortRun (mkBars [1, 2, 3, 4, 5]) ⟨0, 0⟩).2.swaps = 10 ∧
      (heapSortRun (mkBars [1, 2, 3, 4, 5]) ⟨0, 0⟩).2.swaps < heapWorstSwaps5) ∧
    ((quickSortRun (mkBars [1, 2, 3, 4, 5]) ⟨0, 0⟩).2.comparisons = quickWorstComparisons5 ∧
      (quickSortRun (mkBars [1, 2, 3, 4, 5]) ⟨0, 0⟩).2.swaps = quickWorstSwaps5) ∧
    ∀ p : List Int, p.Perm [1, 2, 3, 4, 5] →
      (quickSortRun (mkBars p) ⟨0, 0⟩).2.comparisons ≤ quickWorstComparisons5 ∧
      (quickSortRun (mkBars p) ⟨0, 0⟩).2.swaps ≤ quickWorstSwaps5 ∧
      (heapSortRun (mkBars p) ⟨0, 0⟩).2.comparisons ≤ heapWorstComparisons5 ∧
      (heapSortRun (mkBars p) ⟨0, 0⟩).2.swaps ≤ heapWorstSwaps5 :=
  ⟨by decide, by decide, ⟨by decide, by decide, by decide, by decide⟩,
    ⟨by decide, by decide⟩,
    fun p hp =>
      ⟨le_natMax_of_mem (List.mem_map_of_mem _ (List.mem_permutations'.mpr hp)),
       le_natMax_of_mem (List.mem_map_of_mem _ (List.mem_permutations'.mpr hp)),
       le_natMax_of_mem (List.mem_map_of_mem _ (List.mem_permutations'.mpr hp)),
       le_natMax_of_mem (List.mem_map_of_mem _ (List.mem_permutations'.mpr hp))⟩⟩

/-- Witness for C5 (amended): the quantified bound instantiated at the
ordering `[2,1,3,4,5]`. -/
theorem claimC5_witness :
    ([2, 1, 3, 4, 5] : List Int).Perm [1, 2, 3, 4, 5] ∧
    (quickSortRun (mkBars [2, 1, 3, 4, 5]) ⟨0, 0⟩).2.comparisons ≤ quickWorstComparisons5 :=
  ⟨by decide, (claimC5_sorted_input_bounds.2.2.2.2 [2, 1, 3, 4, 5] (by decide)).1⟩

/-! ## Lemmas for C7 (benchmark orchestrator) -/

theorem benchSizeLoop_eq (engine : String → Nat → Option BenchMeas) (alg : String) :
    ∀ sizes : List Nat,
    benchSizeLoop engine alg sizes =
      (sizes.filterMap fun sz => (engine alg sz).map BenchMeas.timeElapsed,
       sizes.filterMap fun sz => (engine alg sz).map BenchMeas.comparisons,
       sizes.filterMap fun sz => (engine alg sz).map BenchMeas.swaps) := by
  intro sizes
  induction sizes with
  | nil => rfl
  | cons sz rest ih =>
    simp only [benchSizeLoop, List.filterMap_cons]
    cases h : engine alg sz <;> simp [ih, h]

theorem benchFilterMap_length (engine : String → Nat → Option BenchMeas) (alg : String)
    (f g : BenchMeas → Nat) : ∀ sizes : List Nat,
    (sizes.filterMap fun sz => (engine alg sz).map f).length =
      (sizes.filterMap fun sz => (engine alg sz).map g).length := by
  intro sizes
  induction sizes with
  | nil => rfl
  | cons sz rest ih =>
    simp only [List.filterMap_cons]
    cases engine alg sz <;> simp [ih]

theorem benchFilterMap_length_all (engine : String → Nat → Option BenchMeas) (alg : String)
    (f : BenchMeas → Nat) : ∀ sizes : List Nat, (∀ sz ∈ sizes, (engine alg sz).isSome) →
    (sizes.filterMap fun sz => (engine alg sz).map f).length = sizes.length := by
  intro sizes
  induction sizes with
  | nil => intro _h; rfl
  | cons sz rest ih =>
    intro h
    have hsz := h sz (List.mem_cons_self _ _)
    rcases hopt : engine alg sz with _ | m
    · rw [hopt] at hsz; cases hsz
    · simp only [List.filterMap_cons, hopt, Option.map_some]
      simp [ih fun x hx => h x (List.mem_cons_of_mem _ hx)]

/-! ## Claims C7 and C8 -/

/-- C7 counterexample: with an engine that throws on the single pair
(bubble, 10), the orchestrator's `catch` pushes nothing for that pair, so
all later bubble measurements are compacted to earlier indices and the
measurement sequences are no longer parallel to `sizes` — the slot is not
left absent at its index. -/
theorem claimC7_counterexample :
    ¬ ∀ res ∈ runBenchmarks engineCE, res.comparisons.length = res.sizes.length := by
  decide

/-- C7 (amended): a caught per-pair failure does not abort the matrix —
every algorithm still yields a `BenchmarkResult` with `sizes` the full
matrix and the three measurement sequences mutually parallel, holding
exactly the successful pairs' measurements in size order — but a failed
pair's slot is not left absent: later measurements shift down (the
sequences are the `filterMap` of the successes), so per-index alignment
with `sizes` holds only when every pair of that algorithm succeeded. -/
theorem claimC7_failure_isolation :
    ∀ engine : String → Nat → Option BenchMeas,
      (runBenchmarks engine).map BenchmarkResult.algorithm = benchAlgorithms ∧
      ∀ res ∈ runBenchmarks engine,
        res.sizes = benchSizes ∧
        res.times = (benchSizes.filterMap fun sz =>
          (engine res.algorithm sz).map BenchMeas.timeElapsed) ∧
        res.comparisons = (benchSizes.filterMap fun sz =>
          (engine res.algorithm sz).map BenchMeas.comparisons) ∧
        res.swaps = (benchSizes.filterMap fun sz =>
          (engine res.algorithm sz).map BenchMeas.swaps) ∧
        res.times.length = res.comparisons.length ∧
        res.comparisons.length = res.swaps.length ∧
        ((∀ sz ∈ benchSizes, (engine res.algorithm sz).isSome) →
          res.comparisons.length = benchSizes.length) := by
  intro engine
  constructor
  · rfl
  · intro res hres
    simp only [runBenchmarks, List.mem_map] at hres
    obtain ⟨alg, _halg, rfl⟩ := hres
    simp only [benchSizeLoop_eq]
    refine ⟨trivial, trivial, trivial, trivial,
      benchFilterMap_length engine alg _ _ benchSizes,
      benchFilterMap_length engine alg _ _ benchSizes,
      fun hall => benchFilterMap_length_all engine alg _ benchSizes hall⟩

/-- Witness for C7 (amended): with an engine that succeeds on every pair,
the bubble result's comparison sequence has one entry per size. -/
theorem claimC7_witness :
    (∀ res ∈ runBenchmarks (fun _ sz => some ⟨sz, sz, sz⟩),
      res.comparisons.length = benchSizes.length) := by
  intro res hres
  have h := (claimC7_failure_isolation (fun _ sz => some ⟨sz, sz, sz⟩)).2 res hres
  exact h.2.2.2.2.2.2 (fun sz _ => rfl)

/-- Lower and upper bound of one generated value. -/
theorem genValue_bounds (mn mx : Int) (q : ℚ) (hmn : mn ≤ mx) (h0 : 0 ≤ q)
    (h1 : q < 1) : mn ≤ genValue mn mx q ∧ genValue mn mx q ≤ mx := by
  unfold genValue
  have hk1 : (1 : Int) ≤ mx - mn + 1 := by omega
  have hkpos : (0 : ℚ) < ((mx - mn + 1 : Int) : ℚ) := by exact_mod_cast hk1
  constructor
  · have h2 : (0 : Int) ≤ ⌊q * ((mx - mn + 1 : Int) : ℚ)⌋ :=
      Int.floor_nonneg.mpr (mul_nonneg h0 hkpos.le)
    omega
  · have h3 : q * ((mx - mn + 1 : Int) : ℚ) < ((mx - mn + 1 : Int) : ℚ) :=
      (mul_lt_iff_lt_one_left hkpos).mpr h1
    have h4 : ⌊q * ((mx - mn + 1 : Int) : ℚ)⌋ < mx - mn + 1 := by
      rw [Int.floor_lt]
      exact_mod_cast h3
    omega

/-- C8: with the random oracle confined to `[0, 1)`, the generation routine
returns a fresh array of exactly the requested length whose every element
has a value inside the inclusive range and all visual flags reset;
`generateArray` itself instantiates it at `ARRAY_SIZE = 50` and range
`[MIN_VALUE, MAX_VALUE] = [5, 100]`. -/
theorem claimC8_generate (size : Nat) (mn mx : Int) (rnd : Nat → ℚ)
    (hmn : mn ≤ mx) (hr : ∀ k, 0 ≤ rnd k ∧ rnd k < 1) :
    (genList size mn mx rnd).length = size ∧
    (∀ bar ∈ genList size mn mx rnd,
      mn ≤ bar.value ∧ bar.value ≤ mx ∧ bar.isComparing = false ∧
      bar.isSorted = false ∧ bar.isSwapping = false) ∧
    (generateArray rnd).length = ARRAY_SIZE ∧
    ∀ bar ∈ generateArray rnd, MIN_VALUE ≤ bar.value ∧ bar.value ≤ MAX_VALUE := by
  have hmem : ∀ (sz : Nat) (mn1 mx1 : Int), mn1 ≤ mx1 →
      ∀ bar ∈ genList sz mn1 mx1 rnd,
      mn1 ≤ bar.value ∧ bar.value ≤ mx1 ∧ bar.isComparing = false ∧
      bar.isSorted = false ∧ bar.isSwapping = false := by
    intro sz mn1 mx1 hle bar hbar
    simp only [genList, List.mem_map] at hbar
    obtain ⟨k, _hk, rfl⟩ := hbar
    have hb := genValue_bounds mn1 mx1 (rnd k) hle (hr k).1 (hr k).2
    exact ⟨hb.1, hb.2, rfl, rfl, rfl⟩
  refine ⟨by simp [genList], hmem size mn mx hmn, by simp [generateArray, genList, ARRAY_SIZE], ?_⟩
  intro bar hbar
  have := hmem ARRAY_SIZE MIN_VALUE MAX_VALUE (by decide) bar hbar
  exact ⟨this.1, this.2.1⟩

/-- Witness for C8: generation of three values in `[5, 100]` from the
constant oracle `1/2` (each value is `floor(96/2) + 5 = 53`). -/
theorem claimC8_witness :
    (5 : Int) ≤ 100 ∧ ((0 : ℚ) ≤ 1 / 2 ∧ (1 / 2 : ℚ) < 1) ∧
    (genList 3 5 100 fun _ => 1 / 2).length = 3 ∧
    ∀ bar ∈ genList 3 5 100 (fun _ => 1 / 2), (5 : Int) ≤ bar.value ∧ bar.value ≤ 100 := by
  have h := claimC8_generate 3 5 100 (fun _ => 1 / 2) (by norm_num)
    (fun _k => ⟨by norm_num, by norm_num⟩)
  exact ⟨by norm_num, ⟨by norm_num, by norm_num⟩, h.1,
    fun bar hbar => ⟨(h.2.1 bar hbar).1, (h.2.1 bar hbar).2.1⟩⟩

/-! ## List-indexing infrastructure for the correctness proofs -/

theorem getN_eq_getElem (l : List ArrayBar) (i : Nat) (h : i < l.length) :
    getN l i = l[i] := by
  simp [getN, List.getD_eq_getElem?_getD, List.getElem?_eq_getElem h]

theorem length_setN (l : List ArrayBar) (i : Nat) (x : ArrayBar) :
    (setN l i x).length = l.length := by
  simp [setN]

theorem getN_setN_eq (l : List ArrayBar) (i : Nat) (x : ArrayBar) (h : i < l.length) :
    getN (setN l i x) i = x := by
  simp [getN, setN, List.getD_eq_getElem?_getD, List.getElem?_set, h]

theorem getN_setN_ne (l : List ArrayBar) (i j : Nat) (x : ArrayBar) (h : i ≠ j) :
    getN (setN l i x) j = getN l j := by
  simp [getN, setN, List.getD_eq_getElem?_getD, List.getElem?_set, h]

theorem setN_getN_self (l : List ArrayBar) (i : Nat) (h : i < l.length) :
    setN l i (getN l i) = l := by
  apply List.ext_getElem (by simp [setN])
  intro k h1 h2
  simp only [setN, List.getElem_set]
  split
  · next heq => rw [heq]; exact getN_eq_getElem l k h2
  · rfl

theorem length_swapN (l : List ArrayBar) (i j : Nat) :
    (swapN l i j).length = l.length := by
  simp [swapN, setN]

theorem getN_swapN_left (l : List ArrayBar) (i j : Nat) (hi : i < l.length)
    (hj : j < l.length) : getN (swapN l i j) i = getN l j := by
  rcases eq_or_ne i j with rfl | hij
  · rw [swapN, getN_setN_eq]
    simpa [setN]
  · rw [swapN, getN_setN_ne _ _ _ _ (Ne.symm hij), getN_setN_eq]
    exact hi

theorem getN_swapN_right (l : List ArrayBar) (i j : Nat) (hj : j < l.length) :
    getN (swapN l i j) j = getN l i := by
  rw [swapN, getN_setN_eq]
  simpa [setN]

theorem getN_swapN_other (l : List ArrayBar) (i j k : Nat) (h1 : k ≠ i) (h2 : k ≠ j) :
    getN (swapN l i j) k = getN l k := by
  rw [swapN, getN_setN_ne _ _ _ _ (Ne.symm h2), getN_setN_ne _ _ _ _ (Ne.symm h1)]

theorem cons_set_perm : ∀ (t : List ArrayBar) (m : Nat) (a : ArrayBar),
    m < t.length → (t.getD m default :: t.set m a).Perm (a :: t) := by
  intro t
  induction t with
  | nil => intro m a h; cases h
  | cons b t2 ih =>
    intro m a h
    cases m with
    | zero => exact List.Perm.swap a b t2
    | succ m =>
      have h1 : (t2.getD m default :: b :: t2.set m a).Perm
          (b :: t2.getD m default :: t2.set m a) := List.Perm.swap _ _ _
      have h2 : (b :: t2.getD m default :: t2.set m a).Perm (b :: a :: t2) :=
        (ih m a (by simpa using Nat.lt_of_succ_lt_succ h)).cons b
      have h3 : (b :: a :: t2).Perm (a :: b :: t2) := List.Perm.swap _ _ _
      exact (h1.trans h2).trans h3

theorem swapN_perm : ∀ (l : List ArrayBar) (i j : Nat), i ≤ j → j < l.length →
    (swapN l i j).Perm l := by
  intro l i j hij hj
  rcases Nat.lt_or_ge i j with hlt | hge
  · clear hij
    induction i generalizing l j with
    | zero =>
      match l, j, hlt with
      | c :: t, m + 1, hlt =>
        have hm : m < t.length := by simpa using Nat.lt_of_succ_lt_succ hj
        have : swapN (c :: t) 0 (m + 1) = t.getD m default :: t.set m c := by
          simp [swapN, setN, getN, List.getD_cons_succ, List.getD_cons_zero]
        rw [this]
        exact cons_set_perm t m c hm
    | succ i ih =>
      match l, j, hlt with
      | c :: t, m + 1, hlt =>
        have : swapN (c :: t) (i + 1) (m + 1) = c :: swapN t i m := by
          simp [swapN, setN, getN, List.getD_cons_succ]
        rw [this]
        exact (ih t m (by simpa using Nat.lt_of_succ_lt_succ hj)
          (Nat.lt_of_succ_lt_succ hlt)).cons c
  · have heq : i = j := Nat.le_antisymm hij hge
    subst heq
    have hself := setN_getN_self l i hj
    simp only [swapN, setN] at hself ⊢
    rw [List.set_set, hself]

theorem take_perm_of_drop_eq {l1 l2 : List ArrayBar} (n : Nat) (hp : l1.Perm l2)
    (hd : l1.drop n = l2.drop n) : (l1.take n).Perm (l2.take n) := by
  have h1 := List.take_append_drop n l1
  have h2 := List.take_append_drop n l2
  rw [← h1, ← h2, hd] at hp
  exact (List.perm_append_right_iff _).mp hp

theorem seg_perm_of_outside_eq {l1 l2 : List ArrayBar} (a b : Nat) (hab : a ≤ b)
    (hp : l1.Perm l2) (ht : l1.take a = l2.take a) (hd : l1.drop b = l2.drop b) :
    ((l1.take b).drop a).Perm ((l2.take b).drop a) := by
  have e1 : l1 = l1.take a ++ ((l1.take b).drop a ++ l1.drop b) := by
    rw [← List.append_assoc]
    rw [show l1.take a = (l1.take b).take a by rw [List.take_take, Nat.min_eq_left hab]]
    rw [List.take_append_drop, List.take_append_drop]
  have e2 : l2 = l2.take a ++ ((l2.take b).drop a ++ l2.drop b) := by
    rw [← List.append_assoc]
    rw [show l2.take a = (l2.take b).take a by rw [List.take_take, Nat.min_eq_left hab]]
    rw [List.take_append_drop, List.take_append_drop]
  rw [e1, e2, ht] at hp
  have hp2 := (List.perm_append_left_iff _).mp hp
  rw [hd] at hp2
  exact (List.perm_append_right_iff _).mp hp2

theorem take_eq_of_getN (l1 l2 : List ArrayBar) (n : Nat) (hlen : l1.length = l2.length)
    (hn : n ≤ l1.length) (h : ∀ k, k < n → getN l1 k = getN l2 k) :
    l1.take n = l2.take n := by
  apply List.ext_getElem (by simp [hlen])
  intro i h1 h2
  simp only [List.length_take] at h1
  have hb1 : i < l1.length := lt_of_lt_of_le (lt_min_iff.mp h1).1 hn
  rw [List.getElem_take, List.getElem_take,
    ← getN_eq_getElem _ _ hb1, ← getN_eq_getElem _ _ (hlen ▸ hb1)]
  exact h i (lt_min_iff.mp h1).1

theorem drop_eq_of_getN (l1 l2 : List ArrayBar) (n : Nat) (hlen : l1.length = l2.length)
    (h : ∀ k, n ≤ k → k < l1.length → getN l1 k = getN l2 k) :
    l1.drop n = l2.drop n := by
  apply List.ext_getElem (by simp [hlen])
  intro i h1 h2
  simp only [List.length_drop] at h1
  have hb : n + i < l1.length := by omega
  rw [List.getElem_drop, List.getElem_drop,
    ← getN_eq_getElem _ _ hb, ← getN_eq_getElem _ _ (hlen ▸ hb)]
  exact h (n + i) (by omega) hb

theorem getN_mem_seg (l : List ArrayBar) (a b k : Nat) (h1 : a ≤ k) (h2 : k < b)
    (h3 : b ≤ l.length) : getN l k ∈ (l.take b).drop a := by
  have hlen : (l.take b).length = b := by simp [Nat.min_eq_left h3]
  have hidx : k - a < ((l.take b).drop a).length := by simp [hlen]; omega
  have hget : ((l.take b).drop a)[k - a] = getN l k := by
    rw [List.getElem_drop, List.getElem_take]
    rw [← getN_eq_getElem l (a + (k - a)) (by omega)]
    congr 1
    omega
  rw [← hget]
  exact List.getElem_mem hidx

theorem getN_mem_take (l : List ArrayBar) (b k : Nat) (h2 : k < b) (h3 : b ≤ l.length) :
    getN l k ∈ l.take b := by
  have := getN_mem_seg l 0 b k (Nat.zero_le k) h2 h3
  simpa using this

/-! ## Bubble sort correctness (for C1) -/

theorem bubblePass_perm (k : Nat) : ∀ (l : List ArrayBar) (s : SortStats),
    (bubblePass k l s).1.Perm l := by
  induction k with
  | zero => intro l s; rfl
  | succ k ih =>
    intro l s
    match l with
    | [] => rfl
    | [a] => rfl
    | a :: b :: rest =>
      simp only [bubblePass]
      split
      · exact ((ih (a :: rest) _).cons b).trans (List.Perm.swap a b rest)
      · exact (ih (b :: rest) _).cons a

theorem bubblePass_drop (k : Nat) : ∀ (l : List ArrayBar) (s : SortStats),
    (bubblePass k l s).1.drop (k + 1) = l.drop (k + 1) := by
  induction k with
  | zero => intro l s; rfl
  | succ k ih =>
    intro l s
    match l with
    | [] => rfl
    | [a] => rfl
    | a :: b :: rest =>
      simp only [bubblePass]
      split
      · simpa using ih (a :: rest) _
      · simpa using ih (b :: rest) _

theorem bubblePass_head_le (k : Nat) : ∀ (l : List ArrayBar) (s : SortStats),
    k < l.length → (getN l 0).value ≤ (getN (bubblePass k l s).1 k).value := by
  induction k with
  | zero => intro l s _h; exact le_refl _
  | succ k ih =>
    intro l s h
    match l, h with
    | a :: b :: rest, h =>
      have hlen1 : k < (a :: rest).length := by simp at h ⊢; omega
      have hlen2 : k < (b :: rest).length := by simp at h ⊢; omega
      simp only [bubblePass]
      split
      · next hgt =>
        have h2 := ih (a :: rest) ⟨s.comparisons + 1, s.swaps + 1⟩ hlen1
        simp only [getN, List.getD_cons_succ, List.getD_cons_zero] at h2 ⊢
        exact h2
      · next hle =>
        have h2 := ih (b :: rest) ⟨s.comparisons + 1, s.swaps⟩ hlen2
        simp only [getN, List.getD_cons_succ, List.getD_cons_zero] at h2 ⊢
        omega

theorem bubblePass_take_le (k : Nat) : ∀ (l : List ArrayBar) (s : SortStats),
    k < l.length → ∀ x ∈ (bubblePass k l s).1.take k,
      x.value ≤ (getN (bubblePass k l s).1 k).value := by
  induction k with
  | zero => intro l s _h x hx; simp at hx
  | succ k ih =>
    intro l s h
    match l, h with
    | a :: b :: rest, h =>
      have hlen1 : k < (a :: rest).length := by simp at h ⊢; omega
      have hlen2 : k < (b :: rest).length := by simp at h ⊢; omega
      simp only [bubblePass]
      split
      · next hgt =>
        intro x hx
        simp only [List.take_succ_cons, List.mem_cons] at hx
        simp only [getN, List.getD_cons_succ]
        rcases hx with hxb | hx
        · subst hxb
          have hh := bubblePass_head_le k (a :: rest) ⟨s.comparisons + 1, s.swaps + 1⟩ hlen1
          simp only [getN, List.getD_cons_zero] at hh
          omega
        · have hh := ih (a :: rest) ⟨s.comparisons + 1, s.swaps + 1⟩ hlen1 x hx
          simpa [getN] using hh
      · next hle =>
        intro x hx
        simp only [List.take_succ_cons, List.mem_cons] at hx
        simp only [getN, List.getD_cons_succ]
        rcases hx with hxb | hx
        · subst hxb
          have hh := bubblePass_head_le k (b :: rest) ⟨s.comparisons + 1, s.swaps⟩ hlen2
          simp only [getN, List.getD_cons_zero] at hh
          omega
        · have hh := ih (b :: rest) ⟨s.comparisons + 1, s.swaps⟩ hlen2 x hx
          simpa [getN] using hh

theorem bubbleLoop_perm (k : Nat) : ∀ (l : List ArrayBar) (s : SortStats),
    (bubbleLoop k l s).1.Perm l := by
  induction k with
  | zero => intro l s; rfl
  | succ k ih =>
    intro l s
    simp only [bubbleLoop]
    exact (ih _ _).trans (bubblePass_perm (k + 1) l s)

theorem bubbleLoop_sorted (k : Nat) : ∀ (l : List ArrayBar) (s : SortStats),
    k < l.length →
    List.Sorted (· ≤ ·) (vals (l.drop (k + 1))) →
    (∀ x ∈ l.take (k + 1), ∀ y ∈ l.drop (k + 1), x.value ≤ y.value) →
    List.Sorted (· ≤ ·) (vals (bubbleLoop k l s).1) := by
  induction k with
  | zero =>
    intro l s h hsorted hle
    match l, h with
    | h0 :: t, _h =>
      simp only [bubbleLoop, vals, List.map_cons, List.sorted_cons]
      refine ⟨?_, by simpa [vals] using hsorted⟩
      intro v hv
      simp only [List.mem_map] at hv
      obtain ⟨y, hy, rfl⟩ := hv
      exact hle h0 (by simp) y (by simpa using hy)
  | succ k ih =>
    intro l s h hsorted hle
    simp only [bubbleLoop]
    set r := bubblePass (k + 1) l s with hr
    have hlen : r.1.length = l.length := bubblePass_length (k + 1) l s
    have hperm : r.1.Perm l := bubblePass_perm (k + 1) l s
    have hdrop : r.1.drop (k + 2) = l.drop (k + 2) := bubblePass_drop (k + 1) l s
    have htake : (r.1.take (k + 2)).Perm (l.take (k + 2)) :=
      take_perm_of_drop_eq (k + 2) hperm hdrop
    have hk2 : k + 1 < r.1.length := by omega
    have hcons : r.1.drop (k + 1) = getN r.1 (k + 1) :: l.drop (k + 2) := by
      rw [getN_eq_getElem _ _ hk2, ← hdrop]
      exact List.drop_eq_getElem_cons hk2
    -- the element parked at position k+1 is bounded by everything beyond k+1
    have hmax_le_suffix : ∀ y ∈ l.drop (k + 2), (getN r.1 (k + 1)).value ≤ y.value := by
      intro y hy
      have hmem : getN r.1 (k + 1) ∈ r.1.take (k + 2) :=
        getN_mem_take r.1 (k + 2) (k + 1) (by omega) (by omega)
      have hmem2 : getN r.1 (k + 1) ∈ l.take (k + 2) := htake.subset hmem
      exact hle _ hmem2 y hy
    apply ih r.1 r.2 (by omega)
    · -- sortedness of the new suffix
      rw [hcons]
      simp only [vals, List.map_cons, List.sorted_cons]
      constructor
      · intro v hv
        simp only [List.mem_map] at hv
        obtain ⟨y, hy, rfl⟩ := hv
        exact hmax_le_suffix y hy
      · simpa [vals] using hsorted
    · -- prefix bounded by the new suffix
      intro x hx y hy
      rw [hcons] at hy
      rcases List.mem_cons.mp hy with hyk | hy
      · subst hyk
        exact bubblePass_take_le (k + 1) l s (by omega) x hx
      · have hx2 : x ∈ r.1.take (k + 2) := by
          have he : r.1.take (k + 1) = (r.1.take (k + 2)).take (k + 1) := by
            rw [List.take_take, Nat.min_eq_left (by omega)]
          rw [he] at hx
          exact List.take_subset _ _ hx
        have hx3 : x ∈ l.take (k + 2) := htake.subset hx2
        exact hle x hx3 y hy

theorem bubbleSortRun_sorted_perm (arr : List ArrayBar) (s : SortStats) :
    (vals (bubbleSortRun arr s).1).Perm (vals arr) ∧
    List.Sorted (· ≤ ·) (vals (bubbleSortRun arr s).1) := by
  constructor
  · exact (bubbleLoop_perm _ arr s).map ArrayBar.value
  · rcases hlen : arr.length with _ | n
    · rw [List.length_eq_zero] at hlen
      subst hlen
      simp [bubbleSortRun, bubbleLoop, vals]
    · unfold bubbleSortRun
      rw [hlen]
      simp only [Nat.succ_sub_one]
      apply bubbleLoop_sorted n arr s (by omega)
      · rw [List.drop_eq_nil_of_le (by omega)]
        simp [vals]
      · intro x _hx y hy
        rw [List.drop_eq_nil_of_le (by omega)] at hy
        cases hy

/-! ## Merge sort correctness (for C1) -/

theorem mergeDrain_fst (L : List ArrayBar) : ∀ (s : SortStats),
    (mergeDrain L s).1 = L.map fun x => { x with isComparing := false } := by
  induction L with
  | nil => intro s; rfl
  | cons x rest ih => intro s; simp [mergeDrain, ih]

theorem vals_mergeDrain (L : List ArrayBar) (s : SortStats) :
    vals (mergeDrain L s).1 = vals L := by
  rw [mergeDrain_fst]
  simp [vals, List.map_map]

theorem vals_drain_append (L R : List ArrayBar) (s : SortStats) :
    vals ((mergeDrain L s).1 ++ (mergeDrain R (mergeDrain L s).2).1) =
      vals L ++ vals R := by
  rw [vals, List.map_append, ← vals, ← vals, vals_mergeDrain, vals_mergeDrain]

theorem mergeLoopRun_perm (cnt : Nat) : ∀ (L R : List ArrayBar) (s : SortStats),
    (vals (mergeLoopRun cnt L R s).1).Perm (vals L ++ vals R) := by
  induction cnt with
  | zero =>
    intro L R s
    show (vals ((mergeDrain L s).1 ++ (mergeDrain R (mergeDrain L s).2).1)).Perm
      (vals L ++ vals R)
    rw [vals_drain_append]
  | succ cnt ih =>
    intro L R s
    match L, R with
    | [], R =>
      show (vals ((mergeDrain [] s).1 ++ (mergeDrain R (mergeDrain [] s).2).1)).Perm
        (vals [] ++ vals R)
      rw [vals_drain_append]
    | a :: L, [] =>
      show (vals ((mergeDrain (a :: L) s).1 ++
          (mergeDrain [] (mergeDrain (a :: L) s).2).1)).Perm (vals (a :: L) ++ vals [])
      rw [vals_drain_append]
    | a :: L, b :: R =>
      simp only [mergeLoopRun]
      split
      · have h := ih L (b :: R) ⟨s.comparisons + 1, s.swaps + 1⟩
        simp only [vals, List.map_cons] at h ⊢
        exact h.cons a.value
      · have h := ih (a :: L) R ⟨s.comparisons + 1, s.swaps + 1⟩
        simp only [vals, List.map_cons] at h ⊢
        refine (h.cons b.value).trans ?_
        exact List.Perm.symm List.perm_middle

theorem mergeLoopRun_sorted (cnt : Nat) : ∀ (L R : List ArrayBar) (s : SortStats),
    L.length + R.length ≤ cnt →
    List.Sorted (· ≤ ·) (vals L) → List.Sorted (· ≤ ·) (vals R) →
    List.Sorted (· ≤ ·) (vals (mergeLoopRun cnt L R s).1) := by
  induction cnt with
  | zero =>
    intro L R s hlen hL hR
    have hL0 : L = [] := by
      cases L with
      | nil => rfl
      | cons a t => simp at hlen
    have hR0 : R = [] := by
      cases R with
      | nil => rfl
      | cons a t => simp at hlen
    subst hL0
    subst hR0
    show List.Sorted (· ≤ ·)
      (vals ((mergeDrain [] s).1 ++ (mergeDrain [] (mergeDrain [] s).2).1))
    simp [mergeDrain, vals]
  | succ cnt ih =>
    intro L R s hlen hL hR
    match L, R with
    | [], R =>
      show List.Sorted (· ≤ ·)
        (vals ((mergeDrain [] s).1 ++ (mergeDrain R (mergeDrain [] s).2).1))
      rw [vals_drain_append]
      simpa [vals] using hR
    | a :: L, [] =>
      show List.Sorted (· ≤ ·)
        (vals ((mergeDrain (a :: L) s).1 ++
          (mergeDrain [] (mergeDrain (a :: L) s).2).1))
      rw [vals_drain_append]
      simpa [vals] using hL
    | a :: L, b :: R =>
      have hLc := List.sorted_cons.mp (by simpa [vals] using hL :
        List.Sorted (· ≤ ·) (a.value :: List.map ArrayBar.value L))
      have hRc := List.sorted_cons.mp (by simpa [vals] using hR :
        List.Sorted (· ≤ ·) (b.value :: List.map ArrayBar.value R))
      simp only [mergeLoopRun]
      split
      · next hab =>
        have hrec := ih L (b :: R) ⟨s.comparisons + 1, s.swaps + 1⟩
          (by simp at hlen ⊢; omega) hLc.2 hR
        have hperm := mergeLoopRun_perm cnt L (b :: R) ⟨s.comparisons + 1, s.swaps + 1⟩
        simp only [vals, List.map_cons, List.sorted_cons] at hrec hperm ⊢
        refine ⟨?_, hrec⟩
        intro v hv
        have hv2 := hperm.subset hv
        rcases List.mem_append.mp hv2 with hv3 | hv3
        · exact hLc.1 v hv3
        · rcases List.mem_cons.mp hv3 with hvb | hv3
          · rw [hvb]; exact hab
          · exact le_trans hab (hRc.1 v hv3)
      · next hab =>
        have hrec := ih (a :: L) R ⟨s.comparisons + 1, s.swaps + 1⟩
          (by simp at hlen ⊢; omega) hL hRc.2
        have hperm := mergeLoopRun_perm cnt (a :: L) R ⟨s.comparisons + 1, s.swaps + 1⟩
        simp only [vals, List.map_cons, List.sorted_cons] at hrec hperm ⊢
        refine ⟨?_, hrec⟩
        intro v hv
        have hv2 := hperm.subset hv
        rcases List.mem_append.mp hv2 with hv3 | hv3
        · rcases List.mem_cons.mp hv3 with hvb | hv3
          · rw [hvb]; omega
          · have := hLc.1 v hv3
            omega
        · exact hRc.1 v hv3

theorem mergeSortHelper_sorted_perm (fuel : Nat) : ∀ (l : List ArrayBar) (s : SortStats),
    l.length ≤ fuel →
    (vals (mergeSortHelper fuel l s).1).Perm (vals l) ∧
    List.Sorted (· ≤ ·) (vals (mergeSortHelper fuel l s).1) := by
  induction fuel with
  | zero =>
    intro l s hlen
    have : l = [] := by cases l <;> simp_all
    subst this
    simp [mergeSortHelper, vals]
  | succ fuel ih =>
    intro l s hlen
    simp only [mergeSortHelper]
    split
    · next h2 =>
      have htl : (l.take ((l.length - 1) / 2 + 1)).length ≤ fuel := by
        simp only [List.length_take]
        omega
      have hdl : (l.drop ((l.length - 1) / 2 + 1)).length ≤ fuel := by
        simp only [List.length_drop]
        omega
      obtain ⟨hp1, hs1⟩ := ih (l.take ((l.length - 1) / 2 + 1)) s htl
      obtain ⟨hp2, hs2⟩ := ih (l.drop ((l.length - 1) / 2 + 1))
        (mergeSortHelper fuel (l.take ((l.length - 1) / 2 + 1)) s).2 hdl
      have heq : vals (l.take ((l.length - 1) / 2 + 1)) ++
          vals (l.drop ((l.length - 1) / 2 + 1)) = vals l := by
        rw [vals, vals, vals, ← List.map_append, List.take_append_drop]
      constructor
      · rw [← heq]
        exact (mergeLoopRun_perm _ _ _ _).trans (hp1.append hp2)
      · exact mergeLoopRun_sorted _ _ _ _ (le_refl _) hs1 hs2
    · next h2 =>
      refine ⟨List.Perm.refl _, ?_⟩
      match l, h2 with
      | [], _ => simp [vals]
      | [a], _ => simp [vals]
      | a :: b :: t, h2 => exact absurd (by simp) h2

theorem mergeSortRun_sorted_perm (arr : List ArrayBar) (s : SortStats) :
    (vals (mergeSortRun arr s).1).Perm (vals arr) ∧
    List.Sorted (· ≤ ·) (vals (mergeSortRun arr s).1) :=
  mergeSortHelper_sorted_perm arr.length arr s (le_refl _)

/-! ## Quick sort correctness (for C1) -/

theorem mem_seg_imp (l : List ArrayBar) (a b : Nat) (hb : b ≤ l.length) :
    ∀ x ∈ (l.take b).drop a, ∃ m, a ≤ m ∧ m < b ∧ x = getN l m := by
  intro x hx
  obtain ⟨idx, hidx, hval⟩ := List.getElem_of_mem hx
  have hlen : ((l.take b).drop a).length = b - a := by
    simp [Nat.min_eq_left hb]
  refine ⟨a + idx, by omega, by omega, ?_⟩
  rw [← hval, List.getElem_drop, List.getElem_take, ← getN_eq_getElem]

theorem partitionLoop_spec (p : Int) : ∀ (cnt : Nat) (i j low : Int)
    (arr : List ArrayBar) (s : SortStats),
    0 ≤ low → low - 1 ≤ i → i < j →
    j + cnt < (arr.length : Int) →
    (∀ k : Int, low ≤ k → k ≤ i → (getB arr k).value < p) →
    (∀ k : Int, i < k → k < j → p ≤ (getB arr k).value) →
    (partitionLoop p cnt i j arr s).1.length = arr.length ∧
    (partitionLoop p cnt i j arr s).1.Perm arr ∧
    i ≤ (partitionLoop p cnt i j arr s).2.2 ∧
    (partitionLoop p cnt i j arr s).2.2 ≤ i + cnt ∧
    (∀ k : Int, 0 ≤ k → k ≤ i → getB (partitionLoop p cnt i j arr s).1 k = getB arr k) ∧
    (∀ k : Int, j + cnt ≤ k → getB (partitionLoop p cnt i j arr s).1 k = getB arr k) ∧
    (∀ k : Int, low ≤ k → k ≤ (partitionLoop p cnt i j arr s).2.2 →
      (getB (partitionLoop p cnt i j arr s).1 k).value < p) ∧
    (∀ k : Int, (partitionLoop p cnt i j arr s).2.2 < k → k < j + cnt →
      p ≤ (getB (partitionLoop p cnt i j arr s).1 k).value) := by
  intro cnt
  induction cnt with
  | zero =>
    intro i j low arr s _h0 _hli hij _hlen hlow hmid
    simp only [partitionLoop]
    refine ⟨trivial, List.Perm.refl _, le_refl _, by omega, fun k _ _ => trivial,
      fun k _ => trivial, hlow, ?_⟩
    intro k hk1 hk2
    exact hmid k hk1 (by omega)
  | succ cnt ih =>
    intro i j low arr s h0 hli hij hlen hlow hmid
    simp only [partitionLoop]
    split
    · next hcmp =>
      -- swap branch: element at j is < p, boundary advances
      have hjlen : j.toNat < arr.length := by omega
      have hi1len : (i + 1).toNat < arr.length := by omega
      have hlen1 : (swapB arr (i + 1) j).length = arr.length := length_swapN _ _ _
      have hswap_i1 : getB (swapB arr (i + 1) j) (i + 1) = getB arr j := by
        unfold swapB getB
        exact getN_swapN_left arr _ _ hi1len hjlen
      have hswap_j : getB (swapB arr (i + 1) j) j = getB arr (i + 1) := by
        unfold swapB getB
        exact getN_swapN_right arr _ _ hjlen
      have hswap_other : ∀ k : Int, 0 ≤ k → k ≠ i + 1 → k ≠ j →
          getB (swapB arr (i + 1) j) k = getB arr k := by
        intro k hk0 hk1 hk2
        unfold swapB getB
        exact getN_swapN_other arr _ _ _ (by omega) (by omega)
      have hper : (swapB arr (i + 1) j).Perm arr := by
        unfold swapB
        exact swapN_perm arr _ _ (by omega) hjlen
      have ihpre1 : ∀ k : Int, low ≤ k → k ≤ i + 1 →
          (getB (swapB arr (i + 1) j) k).value < p := by
        intro k hk1 hk2
        rcases eq_or_lt_of_le hk2 with heq | hlt
        · rw [heq, hswap_i1]
          exact hcmp
        · rw [hswap_other k (by omega) (by omega) (by omega)]
          exact hlow k hk1 (by omega)
      have ihpre2 : ∀ k : Int, i + 1 < k → k < j + 1 →
          p ≤ (getB (swapB arr (i + 1) j) k).value := by
        intro k hk1 hk2
        rcases eq_or_lt_of_le (show k ≤ j by omega) with heq | hlt
        · subst heq
          rw [hswap_j]
          exact hmid (i + 1) (by omega) (by omega)
        · rw [hswap_other k (by omega) (by omega) (by omega)]
          exact hmid k (by omega) (by omega)
      obtain ⟨c1, c2, c3, c4, c5, c6, c7, c8⟩ :=
        ih (i + 1) (j + 1) low (swapB arr (i + 1) j)
          { comparisons := s.comparisons + 1, swaps := s.swaps + 1 }
          h0 (by omega) (by omega) (by rw [hlen1]; push_cast; omega) ihpre1 ihpre2
      refine ⟨by rw [c1, hlen1], c2.trans hper, by omega, by omega, ?_, ?_, c7, ?_⟩
      · intro k hk0 hki
        rw [c5 k hk0 (by omega), hswap_other k hk0 (by omega) (by omega)]
      · intro k hk
        rw [c6 k (by omega), hswap_other k (by omega) (by omega) (by omega)]
      · intro k hk1 hk2
        exact c8 k hk1 (by omega)
    · next hcmp =>
      have ihpre2 : ∀ k : Int, i < k → k < j + 1 → p ≤ (getB arr k).value := by
        intro k hk1 hk2
        rcases eq_or_lt_of_le (show k ≤ j by omega) with heq | hlt
        · subst heq
          omega
        · exact hmid k hk1 (by omega)
      obtain ⟨c1, c2, c3, c4, c5, c6, c7, c8⟩ :=
        ih i (j + 1) low arr { comparisons := s.comparisons + 1, swaps := s.swaps }
          h0 hli (by omega) (by push_cast; omega) hlow ihpre2
      refine ⟨c1, c2, c3, by omega, c5, ?_, c7, ?_⟩
      · intro k hk
        exact c6 k (by omega)
      · intro k hk1 hk2
        exact c8 k hk1 (by omega)

theorem partitionRun_spec (low high : Int) (arr : List ArrayBar) (s : SortStats)
    (h0 : 0 ≤ low) (hlh : low ≤ high) (hhi : high < (arr.length : Int)) :
    (partitionRun low high arr s).1.length = arr.length ∧
    (partitionRun low high arr s).1.Perm arr ∧
    low ≤ (partitionRun low high arr s).2.2 ∧
    (partitionRun low high arr s).2.2 ≤ high ∧
    (∀ k : Int, 0 ≤ k → k < low → getB (partitionRun low high arr s).1 k = getB arr k) ∧
    (∀ k : Int, high < k → getB (partitionRun low high arr s).1 k = getB arr k) ∧
    (∀ k : Int, low ≤ k → k < (partitionRun low high arr s).2.2 →
      (getB (partitionRun low high arr s).1 k).value <
        (getB (partitionRun low high arr s).1 (partitionRun low high arr s).2.2).value) ∧
    (∀ k : Int, (partitionRun low high arr s).2.2 < k → k ≤ high →
      (getB (partitionRun low high arr s).1 (partitionRun low high arr s).2.2).value ≤
        (getB (partitionRun low high arr s).1 k).value) := by
  obtain ⟨c1, c2, c3, c4, c5, c6, c7, c8⟩ :=
    partitionLoop_spec ((getB arr high).value) (high - low).toNat (low - 1) low low arr s
      h0 (by omega) (by omega) (by omega)
      (fun k hk1 hk2 => by omega)
      (fun k hk1 hk2 => by omega)
  simp only [partitionRun]
  set L := partitionLoop ((getB arr high).value) (high - low).toNat (low - 1) low arr s
    with hLdef
  have hpi_len : (L.2.2 + 1).toNat < L.1.length := by rw [c1]; omega
  have hhigh_len : high.toNat < L.1.length := by rw [c1]; omega
  have hLhigh : getB L.1 high = getB arr high := c6 high (by omega)
  have hsw_pi : getB (swapB L.1 (L.2.2 + 1) high) (L.2.2 + 1) = getB L.1 high := by
    unfold swapB getB
    exact getN_swapN_left L.1 _ _ hpi_len hhigh_len
  have hsw_high : getB (swapB L.1 (L.2.2 + 1) high) high = getB L.1 (L.2.2 + 1) := by
    unfold swapB getB
    exact getN_swapN_right L.1 _ _ hhigh_len
  have hsw_other : ∀ k : Int, 0 ≤ k → k ≠ L.2.2 + 1 → k ≠ high →
      getB (swapB L.1 (L.2.2 + 1) high) k = getB L.1 k := by
    intro k hk0 hk1 hk2
    unfold swapB getB
    exact getN_swapN_other L.1 _ _ _ (by omega) (by omega)
  refine ⟨by simp only [swapB]; rw [length_swapN, c1], ?_, by omega, by omega, ?_, ?_, ?_, ?_⟩
  · exact (swapN_perm L.1 _ _ (by omega) hhigh_len).trans c2
  · intro k hk0 hkl
    rw [hsw_other k hk0 (by omega) (by omega)]
    exact c5 k hk0 (by omega)
  · intro k hk
    rw [hsw_other k (by omega) (by omega) (by omega)]
    exact c6 k (by omega)
  · intro k hk1 hk2
    rw [hsw_pi, hLhigh, hsw_other k (by omega) (by omega) (by omega)]
    exact c7 k hk1 (by omega)
  · intro k hk1 hk2
    rw [hsw_pi, hLhigh]
    rcases eq_or_lt_of_le hk2 with heq | hlt
    · rw [heq, hsw_high]
      rcases eq_or_lt_of_le (show L.2.2 + 1 ≤ high by omega) with heq2 | hlt2
      · rw [heq2, hLhigh]
      · exact c8 (L.2.2 + 1) (by omega) (by omega)
    · rw [hsw_other k (by omega) (by omega) (by omega)]
      exact c8 k (by omega) (by omega)

theorem getB_natCast (l : List ArrayBar) (n : Nat) : getB l (n : Int) = getN l n := by
  simp [getB]

theorem quickSortHelper_spec : ∀ (fuel : Nat) (low high : Int) (arr : List ArrayBar)
    (s : SortStats), 0 ≤ low → high < (arr.length : Int) →
    (high + 1 - low).toNat ≤ fuel →
    (quickSortHelper fuel low high arr s).1.length = arr.length ∧
    (quickSortHelper fuel low high arr s).1.Perm arr ∧
    (∀ k : Int, 0 ≤ k → k < low →
      getB (quickSortHelper fuel low high arr s).1 k = getB arr k) ∧
    (∀ k : Int, high < k → getB (quickSortHelper fuel low high arr s).1 k = getB arr k) ∧
    (∀ k1 k2 : Int, low ≤ k1 → k1 ≤ k2 → k2 ≤ high →
      (getB (quickSortHelper fuel low high arr s).1 k1).value ≤
        (getB (quickSortHelper fuel low high arr s).1 k2).value) := by
  intro fuel
  induction fuel with
  | zero =>
    intro low high arr s h0 hhi hfuel
    simp only [quickSortHelper]
    refine ⟨trivial, List.Perm.refl _, fun k _ _ => trivial, fun k _ => trivial, ?_⟩
    intro k1 k2 hk1 hk2 hk3
    omega
  | succ fuel ih =>
    intro low high arr s h0 hhi hfuel
    simp only [quickSortHelper]
    split
    · next hlh =>
      obtain ⟨p1, p2, p3, p4, p5, p6, p7, p8⟩ :=
        partitionRun_spec low high arr s h0 (by omega) hhi
      set R := partitionRun low high arr s with hRdef
      obtain ⟨q1, q2, q3, q4, q5⟩ := ih low (R.2.2 - 1) R.1 R.2.1 h0 (by omega) (by omega)
      set O1 := quickSortHelper fuel low (R.2.2 - 1) R.1 R.2.1 with hO1def
      obtain ⟨r1, r2, r3, r4, r5⟩ := ih (R.2.2 + 1) high O1.1 O1.2 (by omega) (by omega)
        (by omega)
      set O2 := quickSortHelper fuel (R.2.2 + 1) high O1.1 O1.2 with hO2def
      have hpiv0 : 0 ≤ R.2.2 := by omega
      have hO1R : ∀ k : Int, R.2.2 ≤ k → getB O1.1 k = getB R.1 k := by
        intro k hk
        exact q4 k (by omega)
      have f1 : ∀ k : Int, 0 ≤ k → k ≤ R.2.2 → getB O2.1 k = getB O1.1 k := by
        intro k hk0 hk
        exact r3 k hk0 (by omega)
      have hpv : getB O2.1 R.2.2 = getB R.1 R.2.2 := by
        rw [f1 R.2.2 hpiv0 (le_refl _), hO1R R.2.2 (le_refl _)]
      have f4 : ∀ k : Int, low ≤ k → k < R.2.2 →
          (getB O2.1 k).value < (getB R.1 R.2.2).value := by
        intro k hk1 hk2
        rw [f1 k (by omega) (by omega)]
        have hseg : ((O1.1.take R.2.2.toNat).drop low.toNat).Perm
            ((R.1.take R.2.2.toNat).drop low.toNat) := by
          apply seg_perm_of_outside_eq low.toNat R.2.2.toNat (by omega) q2
          · apply take_eq_of_getN _ _ _ q1 (by omega)
            intro kn hkn
            rw [← getB_natCast, ← getB_natCast]
            exact q3 (kn : Int) (by omega) (by omega)
          · apply drop_eq_of_getN _ _ _ q1
            intro kn hkn _hkl
            rw [← getB_natCast, ← getB_natCast]
            exact q4 (kn : Int) (by omega)
        have hmem : getB O1.1 k ∈ (O1.1.take R.2.2.toNat).drop low.toNat :=
          getN_mem_seg O1.1 low.toNat R.2.2.toNat k.toNat (by omega) (by omega) (by omega)
        obtain ⟨m, hm1, hm2, hm3⟩ :=
          mem_seg_imp R.1 low.toNat R.2.2.toNat (by omega) _ (hseg.subset hmem)
        rw [hm3, ← getB_natCast R.1 m]
        exact p7 (m : Int) (by omega) (by omega)
      have f5 : ∀ k : Int, R.2.2 < k → k ≤ high →
          (getB R.1 R.2.2).value ≤ (getB O2.1 k).value := by
        intro k hk1 hk2
        have hseg : ((O2.1.take (high.toNat + 1)).drop (R.2.2 + 1).toNat).Perm
            ((O1.1.take (high.toNat + 1)).drop (R.2.2 + 1).toNat) := by
          apply seg_perm_of_outside_eq _ _ (by omega) r2
          · apply take_eq_of_getN _ _ _ r1 (by omega)
            intro kn hkn
            rw [← getB_natCast, ← getB_natCast]
            exact r3 (kn : Int) (by omega) (by omega)
          · apply drop_eq_of_getN _ _ _ r1
            intro kn hkn _hkl
            rw [← getB_natCast, ← getB_natCast]
            exact r4 (kn : Int) (by omega)
        have hmem : getB O2.1 k ∈ (O2.1.take (high.toNat + 1)).drop (R.2.2 + 1).toNat :=
          getN_mem_seg O2.1 _ _ k.toNat (by omega) (by omega) (by omega)
        obtain ⟨m, hm1, hm2, hm3⟩ :=
          mem_seg_imp O1.1 _ _ (by omega) _ (hseg.subset hmem)
        have hmO1 : getB O1.1 (m : Int) = getB R.1 (m : Int) := hO1R (m : Int) (by omega)
        rw [hm3, ← getB_natCast O1.1 m, hmO1, getB_natCast]
        have hp8 := p8 (m : Int) (by omega) (by omega)
        rw [getB_natCast] at hp8
        exact hp8
      refine ⟨?_, ?_, ?_, ?_, ?_⟩
      · rw [r1, q1, p1]
      · exact (r2.trans q2).trans p2
      · intro k hk0 hkl
        rw [r3 k hk0 (by omega), q3 k hk0 hkl, p5 k hk0 hkl]
      · intro k hk
        rw [r4 k hk, q4 k (by omega), p6 k hk]
      · intro k1 k2 hk1 hk12 hk2
        rcases lt_trichotomy k2 R.2.2 with hc2 | hc2 | hc2
        · -- both strictly left of the pivot
          rw [f1 k1 (by omega) (by omega), f1 k2 (by omega) (by omega)]
          exact q5 k1 k2 hk1 hk12 (by omega)
        · subst hc2
          rcases eq_or_lt_of_le hk12 with heq | hlt
          · rw [heq]
          · have := f4 k1 hk1 hlt
            rw [hpv]
            omega
        · have h2 := f5 k2 hc2 hk2
          rcases lt_trichotomy k1 R.2.2 with hc1 | hc1 | hc1
          · have h1 := f4 k1 hk1 hc1
            omega
          · rw [hc1, hpv]
            exact h2
          · exact r5 k1 k2 (by omega) hk12 hk2
    · next hlh =>
      refine ⟨rfl, List.Perm.refl _, fun k _ _ => rfl, fun k _ => rfl, ?_⟩
      intro k1 k2 hk1 hk2 hk3
      have : k1 = k2 := by omega
      rw [this]

theorem quickSortRun_sorted_perm (arr : List ArrayBar) (s : SortStats) :
    (vals (quickSortRun arr s).1).Perm (vals arr) ∧
    List.Sorted (· ≤ ·) (vals (quickSortRun arr s).1) := by
  obtain ⟨c1, c2, c3, c4, c5⟩ := quickSortHelper_spec (arr.length + 1) 0
    (Int.ofNat arr.length - 1) arr s (le_refl 0)
    (by rw [Int.ofNat_eq_natCast]; omega) (by rw [Int.ofNat_eq_natCast]; omega)
  simp only [quickSortRun]
  set Q := quickSortHelper (arr.length + 1) 0 (Int.ofNat arr.length - 1) arr s with hQ
  refine ⟨c2.map ArrayBar.value, ?_⟩
  rw [List.Sorted, List.pairwise_iff_getElem]
  intro i j hi hj hij
  simp only [vals, List.length_map] at hi hj
  simp only [vals, List.getElem_map]
  have hlen : Q.1.length = arr.length := c1
  have hc := c5 (i : Int) (j : Int) (by omega) (by omega)
    (by rw [Int.ofNat_eq_natCast]; omega)
  rw [getB_natCast, getB_natCast, getN_eq_getElem _ _ (by omega : i < Q.1.length),
    getN_eq_getElem _ _ (by omega : j < Q.1.length)] at hc
  exact hc

/-! ## Heap sort correctness (for C1) -/

theorem Desc.le : ∀ {i j : Nat}, Desc i j → i ≤ j := by
  intro i j h
  induction h with
  | refl => exact le_refl _
  | left _ ih => omega
  | right _ ih => omega

theorem Desc.trans : ∀ {i j k : Nat}, Desc i j → Desc j k → Desc i k := by
  intro i j k h1 h2
  induction h2 with
  | refl => exact h1
  | left _ ih => exact Desc.left ih
  | right _ ih => exact Desc.right ih

theorem Desc.cases_child : ∀ {r k : Nat}, Desc r k →
    k = r ∨ ∃ m, Desc r m ∧ (k = 2 * m + 1 ∨ k = 2 * m + 2) := by
  intro r k h
  cases h with
  | refl => exact Or.inl rfl
  | left h => exact Or.inr ⟨_, h, Or.inl rfl⟩
  | right h => exact Or.inr ⟨_, h, Or.inr rfl⟩

theorem heapifyFuel_frame (fuel : Nat) : ∀ (n i : Nat) (arr : List ArrayBar)
    (s : SortStats) (k : Nat), ¬ Desc i k →
    getN (heapifyFuel fuel n i arr s).1 k = getN arr k := by
  induction fuel with
  | zero => intro n i arr s k _h; rfl
  | succ fuel ih =>
    intro n i arr s k hk
    simp only [heapifyFuel]
    split
    · next c1 =>
      split
      · next c2 =>
        rw [if_pos (by omega : 2 * i + 2 ≠ i)]
        rw [ih n (2 * i + 2) _ _ k
          (fun hd => hk (Desc.trans (Desc.right (Desc.refl i)) hd))]
        exact getN_swapN_other arr _ _ _ (fun he => hk (he ▸ Desc.refl i))
          (fun he => hk (he ▸ Desc.right (Desc.refl i)))
      · next c2 =>
        rw [if_pos (by omega : 2 * i + 1 ≠ i)]
        rw [ih n (2 * i + 1) _ _ k
          (fun hd => hk (Desc.trans (Desc.left (Desc.refl i)) hd))]
        exact getN_swapN_other arr _ _ _ (fun he => hk (he ▸ Desc.refl i))
          (fun he => hk (he ▸ Desc.left (Desc.refl i)))
    · next c1 =>
      split
      · next c2 =>
        rw [if_pos (by omega : 2 * i + 2 ≠ i)]
        rw [ih n (2 * i + 2) _ _ k
          (fun hd => hk (Desc.trans (Desc.right (Desc.refl i)) hd))]
        exact getN_swapN_other arr _ _ _ (fun he => hk (he ▸ Desc.refl i))
          (fun he => hk (he ▸ Desc.right (Desc.refl i)))
      · next c2 =>
        rw [if_neg (by omega : ¬ (i ≠ i))]

theorem heapifyFuel_frame_ge (fuel : Nat) : ∀ (n i : Nat) (arr : List ArrayBar)
    (s : SortStats) (k : Nat), n ≤ k → i < n →
    getN (heapifyFuel fuel n i arr s).1 k = getN arr k := by
  induction fuel with
  | zero => intro n i arr s k _h _h2; rfl
  | succ fuel ih =>
    intro n i arr s k hk hi
    simp only [heapifyFuel]
    split
    · next c1 =>
      split
      · next c2 =>
        rw [if_pos (by omega : 2 * i + 2 ≠ i)]
        rw [ih n (2 * i + 2) _ _ k hk (by omega)]
        exact getN_swapN_other arr _ _ _ (by omega) (by omega)
      · next c2 =>
        rw [if_pos (by omega : 2 * i + 1 ≠ i)]
        rw [ih n (2 * i + 1) _ _ k hk (by omega)]
        exact getN_swapN_other arr _ _ _ (by omega) (by omega)
    · next c1 =>
      split
      · next c2 =>
        rw [if_pos (by omega : 2 * i + 2 ≠ i)]
        rw [ih n (2 * i + 2) _ _ k hk (by omega)]
        exact getN_swapN_other arr _ _ _ (by omega) (by omega)
      · next c2 =>
        rw [if_neg (by omega : ¬ (i ≠ i))]

theorem heapifyFuel_perm (fuel : Nat) : ∀ (n i : Nat) (arr : List ArrayBar)
    (s : SortStats), n ≤ arr.length → i < n →
    (heapifyFuel fuel n i arr s).1.Perm arr := by
  induction fuel with
  | zero => intro n i arr s _h _h2; exact List.Perm.refl _
  | succ fuel ih =>
    intro n i arr s hn hi
    simp only [heapifyFuel]
    split
    · next c1 =>
      split
      · next c2 =>
        rw [if_pos (by omega : 2 * i + 2 ≠ i)]
        exact (ih n (2 * i + 2) _ _ (by rw [length_swapN]; exact hn) (by omega)).trans
          (swapN_perm arr _ _ (by omega) (by omega))
      · next c2 =>
        rw [if_pos (by omega : 2 * i + 1 ≠ i)]
        exact (ih n (2 * i + 1) _ _ (by rw [length_swapN]; exact hn) (by omega)).trans
          (swapN_perm arr _ _ (by omega) (by omega))
    · next c1 =>
      split
      · next c2 =>
        rw [if_pos (by omega : 2 * i + 2 ≠ i)]
        exact (ih n (2 * i + 2) _ _ (by rw [length_swapN]; exact hn) (by omega)).trans
          (swapN_perm arr _ _ (by omega) (by omega))
      · next c2 =>
        rw [if_neg (by omega : ¬ (i ≠ i))]

theorem heap_desc_le (arr : List ArrayBar) (n i : Nat)
    (hpre : ∀ j, i < j → j < n → NodeOK arr n j) :
    ∀ (m q : Nat), i < m → Desc m q → q < n →
      (getN arr q).value ≤ (getN arr m).value := by
  intro m q him hd
  induction hd with
  | refl => intro _h; exact le_refl _
  | @left c hd2 ih =>
    intro hq
    have hcm : c ≥ m := hd2.le
    have h1 := (hpre c (by omega) (by omega)).1 hq
    exact le_trans h1 (ih (by omega))
  | @right c hd2 ih =>
    intro hq
    have hcm : c ≥ m := hd2.le
    have h1 := (hpre c (by omega) (by omega)).2 hq
    exact le_trans h1 (ih (by omega))

theorem sift_swap_aux (fuel : Nat)
    (ih : ∀ (n i : Nat) (arr : List ArrayBar) (s : SortStats),
      n ≤ arr.length → i < n → n - i ≤ fuel →
      (∀ j, i < j → j < n → NodeOK arr n j) →
      (∀ j, i ≤ j → j < n → NodeOK (heapifyFuel fuel n i arr s).1 n j) ∧
      (∀ p : Int, (∀ q, Desc i q → q < n → (getN arr q).value ≤ p) →
        ∀ q, Desc i q → q < n → (getN (heapifyFuel fuel n i arr s).1 q).value ≤ p))
    (n i L : Nat) (arr : List ArrayBar) (s3 : SortStats)
    (hn : n ≤ arr.length) (hi : i < n) (hfuel : n - i ≤ fuel + 1)
    (hpre : ∀ j, i < j → j < n → NodeOK arr n j)
    (hL : L = 2 * i + 1 ∨ L = 2 * i + 2) (hLn : L < n)
    (hmax_i : (getN arr i).value ≤ (getN arr L).value)
    (hmax_l : 2 * i + 1 < n → (getN arr (2 * i + 1)).value ≤ (getN arr L).value)
    (hmax_r : 2 * i + 2 < n → (getN arr (2 * i + 2)).value ≤ (getN arr L).value) :
    (∀ j, i ≤ j → j < n →
      NodeOK (heapifyFuel fuel n L (swapN arr i L) s3).1 n j) ∧
    (∀ p : Int, (∀ q, Desc i q → q < n → (getN arr q).value ≤ p) →
      ∀ q, Desc i q → q < n →
        (getN (heapifyFuel fuel n L (swapN arr i L) s3).1 q).value ≤ p) := by
  have hiL : i < L := by omega
  have hparent : (L - 1) / 2 = i := by rcases hL with h | h <;> omega
  have hLdesc : Desc i L := by
    rcases hL with h | h
    · rw [h]; exact Desc.left (Desc.refl i)
    · rw [h]; exact Desc.right (Desc.refl i)
  have hLlen : L < arr.length := by omega
  have hilen : i < arr.length := by omega
  have hswap_i : getN (swapN arr i L) i = getN arr L := getN_swapN_left arr i L hilen hLlen
  have hswap_L : getN (swapN arr i L) L = getN arr i := getN_swapN_right arr i L hLlen
  have hswap_o : ∀ k, k ≠ i → k ≠ L → getN (swapN arr i L) k = getN arr k :=
    fun k h1 h2 => getN_swapN_other arr i L k h1 h2
  have hnotdesc : ∀ k, k < L → ¬ Desc L k := fun k hk hd => absurd hd.le (by omega)
  have hdesc_parent : ∀ k, Desc L k → k ≠ L → L ≤ (k - 1) / 2 := by
    intro k hd hne
    rcases hd.cases_child with h | ⟨m, hm, hc⟩
    · exact absurd h hne
    · have hmk : (k - 1) / 2 = m := by omega
      rw [hmk]
      exact hm.le
  have hpre2 : ∀ j, L < j → j < n → NodeOK (swapN arr i L) n j := by
    intro j hj1 hj2
    have hpj := hpre j (by omega) hj2
    constructor
    · intro hcb
      rw [hswap_o _ (by omega) (by omega), hswap_o _ (by omega) (by omega)]
      exact hpj.1 hcb
    · intro hcb
      rw [hswap_o _ (by omega) (by omega), hswap_o _ (by omega) (by omega)]
      exact hpj.2 hcb
  obtain ⟨ihA, ihB⟩ := ih n L (swapN arr i L) s3 (by rw [length_swapN]; exact hn) hLn
    (by omega) hpre2
  have hframe : ∀ k, ¬ Desc L k →
      getN (heapifyFuel fuel n L (swapN arr i L) s3).1 k = getN (swapN arr i L) k :=
    fun k hk => heapifyFuel_frame fuel n L _ s3 k hk
  have hboundM : ∀ q, Desc L q → q < n →
      (getN (swapN arr i L) q).value ≤ (getN arr L).value := by
    intro q hd hq
    rcases eq_or_ne q L with rfl | hne
    · rw [hswap_L]; exact hmax_i
    · have hqi : q ≠ i := by have := hd.le; omega
      rw [hswap_o q hqi hne]
      exact heap_desc_le arr n i hpre L q hiL hd hq
  have hTL_le : (getN (heapifyFuel fuel n L (swapN arr i L) s3).1 L).value ≤
      (getN arr L).value :=
    ihB ((getN arr L).value) hboundM L (Desc.refl L) hLn
  have hTi : getN (heapifyFuel fuel n L (swapN arr i L) s3).1 i = getN arr L := by
    rw [hframe i (hnotdesc i hiL), hswap_i]
  constructor
  · intro j hij hjn
    rcases Nat.lt_or_ge j L with hjL | hjL
    · rcases eq_or_lt_of_le hij with heqj | hlt
      · -- the node i itself
        subst heqj
        constructor
        · intro hcb
          rw [hTi]
          rcases hL with hL1 | hL1
          · rw [← hL1]
            exact hTL_le
          · have hnd : ¬ Desc L (2 * i + 1) := by
              intro hd
              rcases eq_or_ne (2 * i + 1) L with he | hne
              · omega
              · have := hdesc_parent _ hd hne
                omega
            rw [hframe _ hnd, hswap_o _ (by omega) (by omega)]
            exact hmax_l hcb
        · intro hcb
          rw [hTi]
          rcases hL with hL1 | hL1
          · have hnd : ¬ Desc L (2 * i + 2) := by
              intro hd
              rcases eq_or_ne (2 * i + 2) L with he | hne
              · omega
              · have := hdesc_parent _ hd hne
                omega
            rw [hframe _ hnd, hswap_o _ (by omega) (by omega)]
            exact hmax_r hcb
          · rw [← hL1]
            exact hTL_le
      · -- i < j < L
        have hne1 : 2 * j + 1 ≠ L := by omega
        have hne2 : 2 * j + 2 ≠ L := by omega
        have hjnd : ¬ Desc L j := hnotdesc j hjL
        have hc1 : ¬ Desc L (2 * j + 1) := by
          intro hd
          have := hdesc_parent _ hd hne1
          omega
        have hc2 : ¬ Desc L (2 * j + 2) := by
          intro hd
          have := hdesc_parent _ hd hne2
          omega
        have hpj := hpre j hlt hjn
        constructor
        · intro hcb
          rw [hframe _ hc1, hframe _ hjnd, hswap_o _ (by omega) hne1,
            hswap_o _ (by omega) (by omega)]
          exact hpj.1 hcb
        · intro hcb
          rw [hframe _ hc2, hframe _ hjnd, hswap_o _ (by omega) hne2,
            hswap_o _ (by omega) (by omega)]
          exact hpj.2 hcb
    · exact ihA j hjL hjn
  · intro p hp q hd hq
    by_cases hdq : Desc L q
    · refine ihB p ?_ q hdq hq
      intro q2 hd2 hq2
      rcases eq_or_ne q2 L with rfl | hne
      · rw [hswap_L]
        exact hp i (Desc.refl i) hi
      · have hq2i : q2 ≠ i := by have := hd2.le; omega
        rw [hswap_o _ hq2i hne]
        exact hp q2 (Desc.trans hLdesc hd2) hq2
    · rw [hframe q hdq]
      rcases eq_or_ne q i with rfl | hqi
      · rw [hswap_i]
        exact hp L hLdesc hLn
      · have hqL : q ≠ L := fun he => hdq (he ▸ Desc.refl L)
        rw [hswap_o q hqi hqL]
        exact hp q hd hq

theorem heapifyFuel_sift (fuel : Nat) : ∀ (n i : Nat) (arr : List ArrayBar)
    (s : SortStats), n ≤ arr.length → i < n → n - i ≤ fuel →
    (∀ j, i < j → j < n → NodeOK arr n j) →
    (∀ j, i ≤ j → j < n → NodeOK (heapifyFuel fuel n i arr s).1 n j) ∧
    (∀ p : Int, (∀ q, Desc i q → q < n → (getN arr q).value ≤ p) →
      ∀ q, Desc i q → q < n → (getN (heapifyFuel fuel n i arr s).1 q).value ≤ p) := by
  induction fuel with
  | zero => intro n i arr s hn hi hfuel hpre; omega
  | succ fuel ih =>
    intro n i arr s hn hi hfuel hpre
    simp only [heapifyFuel]
    split
    · next c1 =>
      split
      · next c2 =>
        rw [if_pos (by omega : 2 * i + 2 ≠ i)]
        exact sift_swap_aux fuel ih n i (2 * i + 2) arr _ hn hi hfuel hpre
          (Or.inr rfl) c2.1
          (by have h1 := c1.2; have h2 := c2.2; omega)
          (fun _h => by have h2 := c2.2; omega)
          (fun _h => le_refl _)
      · next c2 =>
        rw [if_pos (by omega : 2 * i + 1 ≠ i)]
        exact sift_swap_aux fuel ih n i (2 * i + 1) arr _ hn hi hfuel hpre
          (Or.inl rfl) c1.1
          (by have h1 := c1.2; omega)
          (fun _h => le_refl _)
          (fun h => by
            rcases not_and_or.mp c2 with h1 | h2
            · exact absurd h h1
            · omega)
    · next c1 =>
      split
      · next c2 =>
        rw [if_pos (by omega : 2 * i + 2 ≠ i)]
        exact sift_swap_aux fuel ih n i (2 * i + 2) arr _ hn hi hfuel hpre
          (Or.inr rfl) c2.1
          (by have h2 := c2.2; omega)
          (fun h => by
            rcases not_and_or.mp c1 with h1 | h2
            · exact absurd h h1
            · have h3 := c2.2
              omega)
          (fun _h => le_refl _)
      · next c2 =>
        rw [if_neg (by omega : ¬ (i ≠ i))]
        dsimp only
        constructor
        · intro j hij hjn
          rcases eq_or_lt_of_le hij with heqj | hlt
          · subst heqj
            constructor
            · intro hcb
              rcases not_and_or.mp c1 with h1 | h2
              · exact absurd hcb h1
              · omega
            · intro hcb
              rcases not_and_or.mp c2 with h1 | h2
              · exact absurd hcb h1
              · omega
          · exact hpre j hlt hjn
        · intro p hp q hd hq
          exact hp q hd hq

theorem desc_zero : ∀ k, Desc 0 k := by
  intro k
  induction k using Nat.strong_induction_on with
  | _ k ih =>
    match k with
    | 0 => exact Desc.refl 0
    | k + 1 =>
      have hd := ih ((k + 1 - 1) / 2) (by omega)
      rcases Nat.even_or_odd k with ⟨m, hm⟩ | ⟨m, hm⟩
      · have he : k + 1 = 2 * m + 1 := by omega
        have hpar : (k + 1 - 1) / 2 = m := by omega
        rw [he]
        rw [hpar] at hd
        exact Desc.left hd
      · have he : k + 1 = 2 * m + 2 := by omega
        have hpar : (k + 1 - 1) / 2 = m := by omega
        rw [he]
        rw [hpar] at hd
        exact Desc.right hd

theorem heap_root_max (arr : List ArrayBar) (n : Nat)
    (hheap : ∀ j, j < n → NodeOK arr n j) :
    ∀ k, k < n → (getN arr k).value ≤ (getN arr 0).value := by
  intro k
  induction k using Nat.strong_induction_on with
  | _ k ih =>
    intro hk
    rcases Nat.eq_zero_or_pos k with rfl | hpos
    · exact le_refl _
    · have hpn : (k - 1) / 2 < n := by omega
      have hnode := hheap ((k - 1) / 2) hpn
      have hchild : k = 2 * ((k - 1) / 2) + 1 ∨ k = 2 * ((k - 1) / 2) + 2 := by omega
      have h1 : (getN arr k).value ≤ (getN arr ((k - 1) / 2)).value := by
        rcases hchild with he | he
        · have hh := hnode.1 (by omega)
          rw [← he] at hh
          exact hh
        · have hh := hnode.2 (by omega)
          rw [← he] at hh
          exact hh
      exact le_trans h1 (ih ((k - 1) / 2) (by omega) hpn)

theorem buildHeapLoop_spec : ∀ (k : Nat) (arr : List ArrayBar) (s : SortStats),
    k ≤ arr.length →
    (∀ j, k ≤ j → j < arr.length → NodeOK arr arr.length j) →
    (buildHeapLoop k arr s).1.length = arr.length ∧
    (buildHeapLoop k arr s).1.Perm arr ∧
    (∀ j, j < arr.length → NodeOK (buildHeapLoop k arr s).1 arr.length j) := by
  intro k
  induction k with
  | zero =>
    intro arr s hk hpre
    exact ⟨rfl, List.Perm.refl _, fun j hj => hpre j (Nat.zero_le j) hj⟩
  | succ k ih =>
    intro arr s hk hpre
    set T := heapifyFuel (arr.length + 1) arr.length k arr s with hT
    obtain ⟨hsA, hsB⟩ := heapifyFuel_sift (arr.length + 1) arr.length k arr s
      le_rfl (by omega) (by omega) (fun j hj1 hj2 => hpre j (by omega) hj2)
    have hTperm : T.1.Perm arr :=
      heapifyFuel_perm (arr.length + 1) arr.length k arr s le_rfl (by omega)
    have hTlen : T.1.length = arr.length := hTperm.length_eq
    have hpre2 : ∀ j, k ≤ j → j < T.1.length → NodeOK T.1 T.1.length j := by
      rw [hTlen]
      exact fun j hj1 hj2 => hsA j hj1 hj2
    obtain ⟨ihl, ihp, ihs⟩ := ih T.1 T.2 (by omega) hpre2
    have hunf : buildHeapLoop (k + 1) arr s = buildHeapLoop k T.1 T.2 := rfl
    rw [hunf]
    refine ⟨ihl.trans hTlen, ihp.trans hTperm, ?_⟩
    intro j hj
    have hh := ihs j (by omega)
    rw [hTlen] at hh
    exact hh

theorem extractLoop_spec : ∀ (i : Nat) (arr : List ArrayBar) (s : SortStats),
    i + 1 ≤ arr.length →
    (∀ j, j < i + 1 → NodeOK arr (i + 1) j) →
    (∀ k1 k2, k1 ≤ k2 → i + 1 ≤ k2 → k2 < arr.length →
      (getN arr k1).value ≤ (getN arr k2).value) →
    (extractLoop i arr s).1.length = arr.length ∧
    (extractLoop i arr s).1.Perm arr ∧
    (∀ k1 k2, k1 ≤ k2 → 1 ≤ k2 → k2 < arr.length →
      (getN (extractLoop i arr s).1 k1).value ≤
        (getN (extractLoop i arr s).1 k2).value) := by
  intro i
  induction i with
  | zero =>
    intro arr s hlen hheap hge
    exact ⟨rfl, List.Perm.refl _, fun k1 k2 h12 h1 h2 => hge k1 k2 h12 h1 h2⟩
  | succ i ih =>
    intro arr s hlen hheap hge
    have h0 : 0 < arr.length := by omega
    have hi1 : i + 1 < arr.length := by omega
    have hrm : ∀ k, k < i + 2 → (getN arr k).value ≤ (getN arr 0).value :=
      heap_root_max arr (i + 2) (fun j hj => hheap j hj)
    set B := swapN arr 0 (i + 1) with hB
    have hBlen : B.length = arr.length := length_swapN arr 0 (i + 1)
    have hB0 : getN B 0 = getN arr (i + 1) := getN_swapN_left arr 0 (i + 1) h0 hi1
    have hBi1 : getN B (i + 1) = getN arr 0 := getN_swapN_right arr 0 (i + 1) hi1
    have hBo : ∀ k, k ≠ 0 → k ≠ i + 1 → getN B k = getN arr k :=
      fun k h1 h2 => getN_swapN_other arr 0 (i + 1) k h1 h2
    have hpre : ∀ j, 0 < j → j < i + 1 → NodeOK B (i + 1) j := by
      intro j hj1 hj2
      have hnj := hheap j (by omega)
      constructor
      · intro hcb
        rw [hBo _ (by omega) (by omega), hBo _ (by omega) (by omega)]
        exact hnj.1 (by omega)
      · intro hcb
        rw [hBo _ (by omega) (by omega), hBo _ (by omega) (by omega)]
        exact hnj.2 (by omega)
    set T := heapifyFuel (B.length + 1) (i + 1) 0 B
      { s with swaps := s.swaps + 1 } with hTdef
    obtain ⟨hsA, hsB⟩ := heapifyFuel_sift (B.length + 1) (i + 1) 0 B
      { s with swaps := s.swaps + 1 } (by omega) (by omega) (by omega) hpre
    have hTperm : T.1.Perm arr :=
      (heapifyFuel_perm (B.length + 1) (i + 1) 0 B { s with swaps := s.swaps + 1 }
        (by omega) (by omega)).trans (swapN_perm arr 0 (i + 1) (by omega) hi1)
    have hTlen : T.1.length = arr.length := hTperm.length_eq
    have hTfr : ∀ k, i + 1 ≤ k → getN T.1 k = getN B k :=
      fun k hk => heapifyFuel_frame_ge (B.length + 1) (i + 1) 0 B
        { s with swaps := s.swaps + 1 } k hk (by omega)
    have hbnd : ∀ k, k < i + 1 → (getN T.1 k).value ≤ (getN arr 0).value := by
      intro k hk
      refine hsB ((getN arr 0).value) ?_ k (desc_zero k) hk
      intro q hdq hq
      rcases eq_or_ne q 0 with rfl | hq0
      · rw [hB0]
        exact hrm (i + 1) (by omega)
      · rw [hBo q hq0 (by omega)]
        exact hrm q (by omega)
    have hTo : ∀ k, i + 2 ≤ k → getN T.1 k = getN arr k :=
      fun k hk => (hTfr k (by omega)).trans (hBo k (by omega) (by omega))
    have hTroot : getN T.1 (i + 1) = getN arr 0 := (hTfr (i + 1) le_rfl).trans hBi1
    have hup : ∀ k, i + 1 ≤ k → k < arr.length →
        (getN arr 0).value ≤ (getN T.1 k).value := by
      intro k hk hklen
      rcases eq_or_lt_of_le hk with he | hgt
      · rw [← he, hTroot]
      · rw [hTo k (by omega)]
        exact hge 0 k (by omega) (by omega) hklen
    have hlow : ∀ k, k ≤ i + 1 → (getN T.1 k).value ≤ (getN arr 0).value := by
      intro k hk
      rcases eq_or_lt_of_le hk with he | hlt
      · rw [he, hTroot]
      · exact hbnd k hlt
    have hge2 : ∀ k1 k2, k1 ≤ k2 → i + 1 ≤ k2 → k2 < T.1.length →
        (getN T.1 k1).value ≤ (getN T.1 k2).value := by
      intro k1 k2 h12 hk2 hk2len
      rcases Nat.lt_or_ge k1 (i + 2) with hA | hC
      · exact le_trans (hlow k1 (by omega)) (hup k2 hk2 (by omega))
      · rw [hTo k1 (by omega), hTo k2 (by omega)]
        exact hge k1 k2 h12 (by omega) (by omega)
    obtain ⟨ihl, ihp, ihs⟩ := ih T.1 T.2 (by omega)
      (fun j hj => hsA j (Nat.zero_le j) hj) hge2
    have hunf : extractLoop (i + 1) arr s = extractLoop i T.1 T.2 := rfl
    rw [hunf]
    refine ⟨ihl.trans hTlen, ihp.trans hTperm, ?_⟩
    intro k1 k2 h12 h1 h2
    exact ihs k1 k2 h12 h1 (by omega)

theorem heapSortRun_sorted_perm (arr : List ArrayBar) (s : SortStats) :
    (vals (heapSortRun arr s).1).Perm (vals arr) ∧
    List.Sorted (· ≤ ·) (vals (heapSortRun arr s).1) := by
  rcases Nat.eq_zero_or_pos arr.length with hz | hpos
  · have harr : arr = [] := List.length_eq_zero.mp hz
    subst harr
    exact ⟨List.Perm.refl _, List.sorted_nil⟩
  · obtain ⟨bl, bp, bh⟩ := buildHeapLoop_spec (arr.length / 2) arr s (by omega)
      (by
        intro j hj1 hj2
        constructor
        · intro hcb
          omega
        · intro hcb
          omega)
    set R := buildHeapLoop (arr.length / 2) arr s with hR
    have hheapR : ∀ j, j < arr.length - 1 + 1 → NodeOK R.1 (arr.length - 1 + 1) j := by
      intro j hj
      have hb := bh j (by omega)
      constructor
      · intro hcb
        exact hb.1 (by omega)
      · intro hcb
        exact hb.2 (by omega)
    obtain ⟨el, ep, es⟩ := extractLoop_spec (arr.length - 1) R.1 R.2 (by omega) hheapR
      (by
        intro k1 k2 h12 hk2 hk2len
        omega)
    have hunf : heapSortRun arr s = extractLoop (arr.length - 1) R.1 R.2 := rfl
    rw [hunf]
    constructor
    · exact (ep.trans bp).map ArrayBar.value
    · rw [List.Sorted, List.pairwise_iff_getElem]
      intro a b ha hb hab
      simp only [vals, List.length_map] at ha hb
      simp only [vals, List.getElem_map]
      have hlen : (extractLoop (arr.length - 1) R.1 R.2).1.length = arr.length :=
        el.trans bl
      have hes := es a b (by omega) (by omega) (by omega)
      rw [getN_eq_getElem _ _ (by omega), getN_eq_getElem _ _ (by omega)] at hes
      exact hes

/-- **C1.** For every finite non-empty input array and each of the four
algorithms (bubble, quick, merge, heap), the silent/benchmark code path
returns an array whose values are a permutation of the input values (same
multiset) arranged in non-decreasing order. -/
theorem claimC1_silent_sorts (arr : List ArrayBar) (s : SortStats) (h : arr ≠ []) :
    ((vals (bubbleSortRun arr s).1).Perm (vals arr) ∧
      List.Sorted (· ≤ ·) (vals (bubbleSortRun arr s).1)) ∧
    ((vals (quickSortRun arr s).1).Perm (vals arr) ∧
      List.Sorted (· ≤ ·) (vals (quickSortRun arr s).1)) ∧
    ((vals (mergeSortRun arr s).1).Perm (vals arr) ∧
      List.Sorted (· ≤ ·) (vals (mergeSortRun arr s).1)) ∧
    ((vals (heapSortRun arr s).1).Perm (vals arr) ∧
      List.Sorted (· ≤ ·) (vals (heapSortRun arr s).1)) :=
  ⟨bubbleSortRun_sorted_perm arr s, quickSortRun_sorted_perm arr s,
    mergeSortRun_sorted_perm arr s, heapSortRun_sorted_perm arr s⟩

theorem claimC1_witness :
    mkBars [3, 1, 2] ≠ [] ∧
    (((vals (bubbleSortRun (mkBars [3, 1, 2]) ⟨0, 0⟩).1).Perm (vals (mkBars [3, 1, 2])) ∧
      List.Sorted (· ≤ ·) (vals (bubbleSortRun (mkBars [3, 1, 2]) ⟨0, 0⟩).1)) ∧
    ((vals (quickSortRun (mkBars [3, 1, 2]) ⟨0, 0⟩).1).Perm (vals (mkBars [3, 1, 2])) ∧
      List.Sorted (· ≤ ·) (vals (quickSortRun (mkBars [3, 1, 2]) ⟨0, 0⟩).1)) ∧
    ((vals (mergeSortRun (mkBars [3, 1, 2]) ⟨0, 0⟩).1).Perm (vals (mkBars [3, 1, 2])) ∧
      List.Sorted (· ≤ ·) (vals (mergeSortRun (mkBars [3, 1, 2]) ⟨0, 0⟩).1)) ∧
    ((vals (heapSortRun (mkBars [3, 1, 2]) ⟨0, 0⟩).1).Perm (vals (mkBars [3, 1, 2])) ∧
      List.Sorted (· ≤ ·) (vals (heapSortRun (mkBars [3, 1, 2]) ⟨0, 0⟩).1))) :=
  ⟨by decide, claimC1_silent_sorts (mkBars [3, 1, 2]) ⟨0, 0⟩ (by decide)⟩

/-! ## Dual-mode bridges (for C2 and C6): the benchmark path of each `Full`
engine returns exactly the corresponding pure run, and the interactive path
of each engine succeeds on the inputs where the JS flag writes are in bounds,
with the same final statistics and the same value order (the modes differ
only in the Boolean flags). -/


theorem bubblePassFull_true : ∀ (k : Nat) (l : List ArrayBar) (s : SortStats),
    bubblePassFull true k l s = bubblePass k l s := by
  intro k
  induction k with
  | zero => intro l s; rfl
  | succ k ih =>
    intro l s
    match l with
    | [] => rfl
    | [a] => rfl
    | a :: b :: rest =>
      simp [bubblePassFull, bubblePass]
      split
      · next hc => rw [ih]
      · next hc => rw [ih]

theorem bubbleLoopFull_true : ∀ (k : Nat) (l : List ArrayBar) (s : SortStats),
    bubbleLoopFull true k l s = some (bubbleLoop k l s) := by
  intro k
  induction k with
  | zero => intro l s; rfl
  | succ k ih =>
    intro l s
    simp only [bubbleLoopFull, bubbleLoop, bubblePassFull_true, if_true, pure_bind]
    rw [ih]

theorem bubbleSortFull_true (arr : List ArrayBar) (s : SortStats) :
    bubbleSortFull true arr s = some (bubbleSortRun arr s) := by
  simp only [bubbleSortFull, bubbleSortRun, bubbleLoopFull_true, if_true, pure_bind]
  rfl

theorem vals_set (l : List ArrayBar) (i : Nat) (x : ArrayBar) :
    vals (l.set i x) = (vals l).set i x.value := by
  simp [vals, List.map_set]

theorem vals_length_eq {l1 l2 : List ArrayBar} (h : vals l1 = vals l2) :
    l1.length = l2.length := by
  have h2 := congrArg List.length h
  simpa [vals] using h2

theorem getN_value (l : List ArrayBar) (k : Nat) :
    (getN l k).value = (vals l).getD k 0 := by
  rcases Nat.lt_or_ge k l.length with hk | hk
  · rw [getN_eq_getElem l k hk]
    have hk2 : k < (vals l).length := by simpa [vals] using hk
    rw [List.getD_eq_getElem?_getD, List.getElem?_eq_getElem hk2]
    simp [vals]
  · have h1 : getN l k = default := by
      simp [getN, List.getD_eq_getElem?_getD, List.getElem?_eq_none (by omega : l.length ≤ k)]
    have h2 : (vals l).length ≤ k := by simp [vals]; omega
    rw [h1, List.getD_eq_getElem?_getD, List.getElem?_eq_none h2]
    rfl

theorem getN_value_eq {l1 l2 : List ArrayBar} (h : vals l1 = vals l2) (k : Nat) :
    (getN l1 k).value = (getN l2 k).value := by
  rw [getN_value, getN_value, h]

theorem set_own_getElem (l : List Int) (i : Nat) (hi : i < l.length) :
    l.set i (l.getD i 0) = l := by
  apply List.ext_getElem
  · simp
  · intro k hk1 hk2
    rw [List.getElem_set]
    split
    · next he =>
      subst he
      rw [List.getD_eq_getElem?_getD, List.getElem?_eq_getElem hi]
      rfl
    · rfl

theorem vals_setFlag (l : List ArrayBar) (i : Nat) (f : ArrayBar → ArrayBar)
    (hf : ∀ x, (f x).value = x.value) (hi : i < l.length) :
    vals (l.set i (f (getN l i))) = vals l := by
  rw [vals_set, hf, getN_value]
  exact set_own_getElem (vals l) i (by simpa [vals] using hi)

theorem setFlagAt_pos (l : List ArrayBar) (i : Nat) (f : ArrayBar → ArrayBar)
    (hi : i < l.length) : setFlagAt l i f = some (l.set i (f (getN l i))) := by
  simp [setFlagAt, hi]

theorem setFlagAtI_pos (l : List ArrayBar) (i : Int) (f : ArrayBar → ArrayBar)
    (h0 : 0 ≤ i) (hi : i.toNat < l.length) :
    setFlagAtI l i f = some (l.set i.toNat (f (getN l i.toNat))) := by
  simp [setFlagAtI, h0, hi]

theorem vals_setFlagIfPresent (l : List ArrayBar) (i : Int) (f : ArrayBar → ArrayBar)
    (hf : ∀ x, (f x).value = x.value) :
    vals (setFlagIfPresent l i f) = vals l := by
  unfold setFlagIfPresent
  split
  · next h => exact vals_setFlag l i.toNat f hf h.2
  · rfl

theorem bubblePassFull_false : ∀ (k : Nat) (l1 l2 : List ArrayBar) (s : SortStats),
    vals l1 = vals l2 →
    vals (bubblePassFull false k l1 s).1 = vals (bubblePass k l2 s).1 ∧
    (bubblePassFull false k l1 s).2 = (bubblePass k l2 s).2 := by
  intro k
  induction k with
  | zero => intro l1 l2 s h; exact ⟨h, rfl⟩
  | succ k ih =>
    intro l1 l2 s h
    cases l1 with
    | nil =>
      cases l2 with
      | nil => exact ⟨rfl, rfl⟩
      | cons a2 t2 => simp [vals] at h
    | cons a1 t1 =>
      cases t1 with
      | nil =>
        cases l2 with
        | nil => simp [vals] at h
        | cons a2 t2 =>
          cases t2 with
          | nil => exact ⟨h, rfl⟩
          | cons b2 r2 => simp [vals] at h
      | cons b1 r1 =>
        cases l2 with
        | nil => simp [vals] at h
        | cons a2 t2 =>
          cases t2 with
          | nil => simp [vals] at h
          | cons b2 r2 =>
            obtain ⟨ha, hb, hr⟩ : a1.value = a2.value ∧ b1.value = b2.value ∧
                vals r1 = vals r2 := by simpa [vals] using h
            have hr2 : List.map ArrayBar.value r1 = List.map ArrayBar.value r2 := hr
            simp only [bubblePassFull, bubblePass, Bool.not_false, eq_self_iff_true, if_true]
            by_cases hcmp : b1.value < a1.value
            · have hcmp2 : b2.value < a2.value := by omega
              rw [if_pos (by simpa using hcmp), if_pos (by simpa using hcmp2)]
              have hih := ih ({ a1 with isComparing := false, isSwapping := false } :: r1)
                (a2 :: r2) { comparisons := s.comparisons + 1, swaps := s.swaps + 1 }
                (by simp [vals, ha, hr2])
              refine ⟨?_, by simpa using hih.2⟩
              have h1 := hih.1
              simp only [vals, List.map_cons] at h1 ⊢
              simpa [hb, h1] using h1
            · have hcmp2 : ¬ b2.value < a2.value := by omega
              rw [if_neg (by simpa using hcmp), if_neg (by simpa using hcmp2)]
              have hih := ih ({ b1 with isComparing := false, isSwapping := false } :: r1)
                (b2 :: r2) { comparisons := s.comparisons + 1, swaps := s.swaps }
                (by simp [vals, hb, hr2])
              refine ⟨?_, by simpa using hih.2⟩
              have h1 := hih.1
              simp only [vals, List.map_cons] at h1 ⊢
              simpa [ha, h1] using h1

theorem bubblePassFull_false_length (k : Nat) (l : List ArrayBar) (s : SortStats) :
    (bubblePassFull false k l s).1.length = l.length := by
  have hv := (bubblePassFull_false k l l s rfl).1
  have h2 := vals_length_eq hv
  rw [h2, bubblePass_length]

theorem bubbleLoopFull_false : ∀ (k : Nat) (l1 l2 : List ArrayBar) (s : SortStats),
    k < l1.length → vals l1 = vals l2 →
    ∃ out, bubbleLoopFull false k l1 s = some out ∧
      vals out.1 = vals (bubbleLoop k l2 s).1 ∧ out.2 = (bubbleLoop k l2 s).2 := by
  intro k
  induction k with
  | zero => intro l1 l2 s hk h; exact ⟨(l1, s), rfl, h, rfl⟩
  | succ k ih =>
    intro l1 l2 s hk h
    obtain ⟨hp1, hp2⟩ := bubblePassFull_false (k + 1) l1 l2 s h
    have hplen : (bubblePassFull false (k + 1) l1 s).1.length = l1.length :=
      bubblePassFull_false_length (k + 1) l1 s
    have hwrite := setFlagAt_pos (bubblePassFull false (k + 1) l1 s).1 (k + 1)
      (fun x => { x with isSorted := true }) (by omega)
    obtain ⟨out, ho1, ho2, ho3⟩ := ih
      ((bubblePassFull false (k + 1) l1 s).1.set (k + 1)
        ((fun x => { x with isSorted := true })
          (getN (bubblePassFull false (k + 1) l1 s).1 (k + 1))))
      (bubblePass (k + 1) l2 s).1 (bubblePassFull false (k + 1) l1 s).2
      (by simp only [List.length_set]; omega)
      (by
        rw [vals_setFlag _ _ (fun x => { x with isSorted := true }) (fun x => rfl) (by omega)]
        exact hp1)
    rw [hp2] at ho2 ho3
    refine ⟨out, ?_, ho2, ho3⟩
    simp only [bubbleLoopFull, Bool.false_eq_true, if_false]
    rw [hwrite]
    exact ho1

theorem bubbleLoop_length : ∀ (k : Nat) (l : List ArrayBar) (s : SortStats),
    (bubbleLoop k l s).1.length = l.length := by
  intro k
  induction k with
  | zero => intro l s; rfl
  | succ k ih =>
    intro l s
    simp only [bubbleLoop]
    rw [ih, bubblePass_length]

theorem bubbleSortFull_false (arr : List ArrayBar) (s : SortStats) (h : arr ≠ []) :
    ∃ out, bubbleSortFull false arr s = some out ∧
      vals out.1 = vals (bubbleSortRun arr s).1 ∧ out.2 = (bubbleSortRun arr s).2 := by
  have hlen : 0 < arr.length := List.length_pos.mpr h
  obtain ⟨out, ho1, ho2, ho3⟩ := bubbleLoopFull_false (arr.length - 1) arr arr s
    (by omega) rfl
  have holen : out.1.length = arr.length := by
    have h2 := vals_length_eq ho2
    rw [h2, bubbleLoop_length]
  have hwrite := setFlagAt_pos out.1 0 (fun x => { x with isSorted := true }) (by omega)
  refine ⟨(out.1.set 0 ((fun x => { x with isSorted := true }) (getN out.1 0)), out.2),
    ?_, ?_, ho3⟩
  · simp only [bubbleSortFull]
    rw [ho1]
    show (setFlagAt out.1 0 fun x => { x with isSorted := true }) >>=
        (fun l1 => pure (l1, out.2)) = some
      (out.1.set 0 ((fun x => { x with isSorted := true }) (getN out.1 0)), out.2)
    rw [hwrite]
    rfl
  · rw [vals_setFlag _ _ (fun x => { x with isSorted := true }) (fun x => rfl) (by omega)]
    exact ho2

theorem mergeLoopFull_eq (b : Bool) : ∀ (cnt : Nat) (stale L R : List ArrayBar)
    (s : SortStats), mergeLoopFull b cnt stale L R s = mergeLoopRun cnt L R s := by
  intro cnt
  induction cnt with
  | zero => intro stale L R s; rfl
  | succ cnt ih =>
    intro stale L R s
    match L, R with
    | [], R => rfl
    | a :: L, [] => rfl
    | a :: L, b2 :: R =>
      simp only [mergeLoopFull, mergeLoopRun]
      split
      · next hc => rw [ih]
      · next hc => rw [ih]

theorem mergeSortHelperFull_eq (b : Bool) : ∀ (fuel : Nat) (l : List ArrayBar)
    (s : SortStats), mergeSortHelperFull b fuel l s = mergeSortHelper fuel l s := by
  intro fuel
  induction fuel with
  | zero => intro l s; rfl
  | succ fuel ih =>
    intro l s
    simp only [mergeSortHelperFull, mergeSortHelper]
    split
    · next hc => rw [ih, ih, mergeLoopFull_eq]
    · next hc => rfl

theorem vals_map_sorted_flag (l : List ArrayBar) :
    vals (l.map fun x => { x with isSorted := true }) = vals l := by
  simp [vals, List.map_map]

theorem mergeSortFull_true (arr : List ArrayBar) (s : SortStats) :
    mergeSortFull true arr s = some (mergeSortRun arr s) := by
  simp only [mergeSortFull, mergeSortRun, mergeSortHelperFull_eq, if_true]

theorem mergeSortFull_false (arr : List ArrayBar) (s : SortStats) :
    ∃ out, mergeSortFull false arr s = some out ∧
      vals out.1 = vals (mergeSortRun arr s).1 ∧ out.2 = (mergeSortRun arr s).2 := by
  refine ⟨((mergeSortHelper arr.length arr s).1.map fun x => { x with isSorted := true },
    (mergeSortHelper arr.length arr s).2), ?_, ?_, rfl⟩
  · simp only [mergeSortFull, mergeSortHelperFull_eq, Bool.false_eq_true, if_false]
  · rw [vals_map_sorted_flag]
    rfl

theorem vals_swapN (l : List ArrayBar) (i j : Nat) :
    vals (swapN l i j) = ((vals l).set i ((vals l).getD j 0)).set j ((vals l).getD i 0) := by
  simp only [swapN, setN]
  rw [vals_set, vals_set, getN_value, getN_value]

theorem vals_swapB_congr {l1 l2 : List ArrayBar} (h : vals l1 = vals l2) (i j : Int) :
    vals (swapB l1 i j) = vals (swapB l2 i j) := by
  simp only [swapB]
  rw [vals_swapN, vals_swapN, h]

theorem length_setFlagIfPresent (l : List ArrayBar) (i : Int) (f : ArrayBar → ArrayBar) :
    (setFlagIfPresent l i f).length = l.length := by
  unfold setFlagIfPresent
  split
  · simp
  · rfl

theorem partitionLoop_length (pivot : Int) : ∀ (cnt : Nat) (i j : Int)
    (arr : List ArrayBar) (s : SortStats),
    (partitionLoop pivot cnt i j arr s).1.length = arr.length := by
  intro cnt
  induction cnt with
  | zero => intro i j arr s; rfl
  | succ cnt ih =>
    intro i j arr s
    simp only [partitionLoop]
    split
    · rw [ih]
      simp [swapB, swapN, setN]
    · rw [ih]

theorem partitionLoop_i_bounds (pivot : Int) : ∀ (cnt : Nat) (i j : Int)
    (arr : List ArrayBar) (s : SortStats),
    i ≤ (partitionLoop pivot cnt i j arr s).2.2 ∧
    (partitionLoop pivot cnt i j arr s).2.2 ≤ i + cnt := by
  intro cnt
  induction cnt with
  | zero =>
    intro i j arr s
    exact ⟨le_refl _, by simp [partitionLoop]⟩
  | succ cnt ih =>
    intro i j arr s
    simp only [partitionLoop]
    split
    · constructor
      · exact le_trans (by omega) (ih (i + 1) (j + 1) (swapB arr (i + 1) j) _).1
      · exact le_trans (ih (i + 1) (j + 1) (swapB arr (i + 1) j) _).2 (by push_cast; omega)
    · constructor
      · exact (ih i (j + 1) arr _).1
      · exact le_trans (ih i (j + 1) arr _).2 (by push_cast; omega)


theorem quickMarkCompare_eq (arr : List ArrayBar) (j high : Int)
    (hj : 0 ≤ j) (hjl : j.toNat < arr.length) (hh : 0 ≤ high)
    (hhl : high.toNat < arr.length) :
    ∃ l2, quickMarkCompare arr j high = some l2 ∧ vals l2 = vals arr ∧
      l2.length = arr.length := by
  unfold quickMarkCompare
  rw [setFlagAtI_pos arr j (fun x => { x with isComparing := true }) hj hjl,
    Option.bind_eq_bind, Option.some_bind,
    setFlagAtI_pos _ high (fun x => { x with isComparing := true }) hh (by simpa using hhl)]
  refine ⟨_, rfl, ?_, ?_⟩
  · rw [vals_setFlag _ _ (fun x => { x with isComparing := true }) (fun x => rfl)
      (by simpa using hhl),
      vals_setFlag _ _ (fun x => { x with isComparing := true }) (fun x => rfl) hjl]
  · simp

theorem quickMarkSwap_eq (arr : List ArrayBar) (i1 j : Int)
    (hi : 0 ≤ i1) (hil : i1.toNat < arr.length) (hj : 0 ≤ j) (hjl : j.toNat < arr.length) :
    ∃ l2, quickMarkSwap arr i1 j = some l2 ∧ vals l2 = vals arr ∧
      l2.length = arr.length := by
  unfold quickMarkSwap
  rw [setFlagAtI_pos arr i1 (fun x => { x with isSwapping := true }) hi hil,
    Option.bind_eq_bind, Option.some_bind,
    setFlagAtI_pos _ j (fun x => { x with isSwapping := true }) hj (by simpa using hjl)]
  refine ⟨_, rfl, ?_, ?_⟩
  · rw [vals_setFlag _ _ (fun x => { x with isSwapping := true }) (fun x => rfl)
      (by simpa using hjl),
      vals_setFlag _ _ (fun x => { x with isSwapping := true }) (fun x => rfl) hil]
  · simp

theorem quickClearFlags_eq (arr : List ArrayBar) (j high i1 : Int)
    (hj : 0 ≤ j) (hjl : j.toNat < arr.length) (hh : 0 ≤ high)
    (hhl : high.toNat < arr.length) :
    ∃ l2, quickClearFlags arr j high i1 = some l2 ∧ vals l2 = vals arr ∧
      l2.length = arr.length := by
  unfold quickClearFlags
  rw [setFlagAtI_pos arr j (fun x => { x with isComparing := false }) hj hjl,
    Option.bind_eq_bind, Option.some_bind,
    setFlagAtI_pos _ high (fun x => { x with isComparing := false }) hh (by simpa using hhl),
    Option.some_bind]
  dsimp only
  rw [setFlagAtI_pos _ j (fun x => { x with isSwapping := false }) hj
    (by simp [length_setFlagIfPresent]; omega)]
  refine ⟨_, rfl, ?_, ?_⟩
  · rw [vals_setFlag _ _ (fun x => { x with isSwapping := false }) (fun x => rfl)
      (by simp [length_setFlagIfPresent]; omega),
      vals_setFlagIfPresent _ _ (fun x => { x with isSwapping := false }) (fun x => rfl),
      vals_setFlag _ _ (fun x => { x with isComparing := false }) (fun x => rfl)
        (by simpa using hhl),
      vals_setFlag _ _ (fun x => { x with isComparing := false }) (fun x => rfl) hjl]
  · simp [length_setFlagIfPresent]

theorem partitionLoopFull_false (pivot high : Int) : ∀ (cnt : Nat) (i j : Int)
    (arr1 arr2 : List ArrayBar) (s : SortStats),
    vals arr1 = vals arr2 →
    j + cnt = high → 0 ≤ j → -1 ≤ i → i < j → 0 ≤ high →
    high < (arr1.length : Int) →
    ∃ out, partitionLoopFull false pivot high cnt i j arr1 s = some out ∧
      vals out.1 = vals (partitionLoop pivot cnt i j arr2 s).1 ∧
      out.2 = (partitionLoop pivot cnt i j arr2 s).2 := by
  intro cnt
  induction cnt with
  | zero =>
    intro i j arr1 arr2 s hv hcnt hj hi hij hh hhl
    exact ⟨(arr1, s, i), rfl, hv, rfl⟩
  | succ cnt ih =>
    intro i j arr1 arr2 s hv hcnt hj hi hij hh hhl
    have hjlt : j < high := by omega
    have hjl : j.toNat < arr1.length := by omega
    have hhl2 : high.toNat < arr1.length := by omega
    obtain ⟨A1, hA1, hA1v, hA1len⟩ := quickMarkCompare_eq arr1 j high hj hjl hh hhl2
    have hA1v2 : vals A1 = vals arr2 := hA1v.trans hv
    have he : (getB A1 j).value = (getB arr2 j).value := getN_value_eq hA1v2 j.toNat
    by_cases hcond : (getB A1 j).value < pivot
    · have hcond2 : (getB arr2 j).value < pivot := by
        rw [← he]
        exact hcond
      obtain ⟨A2, hA2, hA2v, hA2len⟩ := quickMarkSwap_eq A1 (i + 1) j
        (by omega) (by omega) hj (by omega)
      have hA3v : vals (swapB A2 (i + 1) j) = vals (swapB arr2 (i + 1) j) :=
        vals_swapB_congr (hA2v.trans hA1v2) (i + 1) j
      have hA3len : (swapB A2 (i + 1) j).length = arr1.length := by
        simp only [swapB, swapN, setN, List.length_set]
        omega
      obtain ⟨A4, hA4, hA4v, hA4len⟩ := quickClearFlags_eq (swapB A2 (i + 1) j) j high
        (i + 1) hj (by omega) hh (by omega)
      obtain ⟨out, hO1, hO2, hO3⟩ := ih (i + 1) (j + 1) A4 (swapB arr2 (i + 1) j)
        { comparisons := s.comparisons + 1, swaps := s.swaps + 1 }
        (hA4v.trans hA3v) (by push_cast; push_cast at hcnt; omega) (by omega) (by omega)
        (by omega) hh (by omega)
      refine ⟨out, ?_, ?_, ?_⟩
      · simp only [partitionLoopFull, Bool.false_eq_true, if_false]
        rw [hA1, Option.bind_eq_bind, Option.some_bind, if_pos hcond,
          hA2, Option.some_bind, hA4, Option.some_bind]
        exact hO1
      · simp only [partitionLoop]
        rw [if_pos hcond2]
        exact hO2
      · simp only [partitionLoop]
        rw [if_pos hcond2]
        exact hO3
    · have hcond2 : ¬ (getB arr2 j).value < pivot := by
        rw [← he]
        exact hcond
      obtain ⟨A4, hA4, hA4v, hA4len⟩ := quickClearFlags_eq A1 j high i
        hj (by omega) hh (by omega)
      obtain ⟨out, hO1, hO2, hO3⟩ := ih i (j + 1) A4 arr2
        { comparisons := s.comparisons + 1, swaps := s.swaps }
        (hA4v.trans hA1v2) (by push_cast; push_cast at hcnt; omega) (by omega) (by omega)
        (by omega) hh (by omega)
      refine ⟨out, ?_, ?_, ?_⟩
      · simp only [partitionLoopFull, Bool.false_eq_true, if_false]
        rw [hA1, Option.bind_eq_bind, Option.some_bind, if_neg hcond,
          hA4, Option.some_bind]
        exact hO1
      · simp only [partitionLoop]
        rw [if_neg hcond2]
        exact hO2
      · simp only [partitionLoop]
        rw [if_neg hcond2]
        exact hO3

theorem partitionLoopFull_true (pivot high : Int) : ∀ (cnt : Nat) (i j : Int)
    (arr : List ArrayBar) (s : SortStats),
    partitionLoopFull true pivot high cnt i j arr s =
      some (partitionLoop pivot cnt i j arr s) := by
  intro cnt
  induction cnt with
  | zero => intro i j arr s; rfl
  | succ cnt ih =>
    intro i j arr s
    simp only [partitionLoopFull, partitionLoop, if_true, pure_bind]
    split
    · next hc => rw [ih]
    · next hc => rw [ih]

theorem partitionRun_length (low high : Int) (arr : List ArrayBar) (s : SortStats) :
    (partitionRun low high arr s).1.length = arr.length := by
  simp only [partitionRun, swapB, swapN, setN, List.length_set]
  rw [partitionLoop_length]

theorem partitionRunFull_true (low high : Int) (arr : List ArrayBar) (s : SortStats) :
    partitionRunFull true low high arr s = some (partitionRun low high arr s) := by
  simp only [partitionRunFull, partitionRun, partitionLoopFull_true, Option.bind_eq_bind,
    Option.some_bind]
  rfl

theorem partitionRunFull_false (low high : Int) (arr1 arr2 : List ArrayBar) (s : SortStats)
    (hv : vals arr1 = vals arr2) (h0 : 0 ≤ low) (hlh : low < high)
    (hhl : high < (arr1.length : Int)) :
    ∃ out, partitionRunFull false low high arr1 s = some out ∧
      vals out.1 = vals (partitionRun low high arr2 s).1 ∧
      out.2 = (partitionRun low high arr2 s).2 := by
  have hpiv : (getB arr1 high).value = (getB arr2 high).value :=
    getN_value_eq hv high.toNat
  obtain ⟨out, hO1, hO2, hO3⟩ := partitionLoopFull_false ((getB arr1 high).value) high
    ((high - low).toNat) (low - 1) low arr1 arr2 s hv (by omega) (by omega) (by omega)
    (by omega) (by omega) hhl
  have hO3b : out.2.2 =
      (partitionLoop (getB arr1 high).value ((high - low).toNat) (low - 1) low arr2 s).2.2 := by
    rw [hO3]
  refine ⟨(swapB out.1 (out.2.2 + 1) high,
    { comparisons := out.2.1.comparisons, swaps := out.2.1.swaps + 1 }, out.2.2 + 1),
    ?_, ?_, ?_⟩
  · simp only [partitionRunFull]
    rw [hO1, Option.bind_eq_bind, Option.some_bind]
    rfl
  · simp only [partitionRun]
    rw [← hpiv, hO3b]
    exact vals_swapB_congr hO2 _ _
  · simp only [partitionRun]
    rw [← hpiv, hO3]

theorem partitionRun_pi_bounds (low high : Int) (arr : List ArrayBar) (s : SortStats)
    (hlh : low ≤ high) :
    low ≤ (partitionRun low high arr s).2.2 ∧ (partitionRun low high arr s).2.2 ≤ high := by
  have h := partitionLoop_i_bounds ((getB arr high).value) ((high - low).toNat)
    (low - 1) low arr s
  simp only [partitionRun]
  constructor <;> omega

theorem quickSortHelper_length : ∀ (fuel : Nat) (low high : Int) (arr : List ArrayBar)
    (s : SortStats), (quickSortHelper fuel low high arr s).1.length = arr.length := by
  intro fuel
  induction fuel with
  | zero => intro low high arr s; rfl
  | succ fuel ih =>
    intro low high arr s
    simp only [quickSortHelper]
    split
    · rw [ih, ih, partitionRun_length]
    · rfl

theorem quickSortHelperFull_true : ∀ (fuel : Nat) (low high : Int) (arr : List ArrayBar)
    (s : SortStats), quickSortHelperFull true fuel low high arr s =
      some (quickSortHelper fuel low high arr s) := by
  intro fuel
  induction fuel with
  | zero => intro low high arr s; rfl
  | succ fuel ih =>
    intro low high arr s
    simp only [quickSortHelperFull, quickSortHelper, partitionRunFull_true,
      Option.bind_eq_bind, Option.some_bind]
    split
    · next hc => rw [ih, Option.some_bind, ih]
    · next hc => rfl

theorem quickSortHelperFull_false : ∀ (fuel : Nat) (low high : Int)
    (arr1 arr2 : List ArrayBar) (s : SortStats),
    vals arr1 = vals arr2 → 0 ≤ low → high < (arr1.length : Int) →
    ∃ out, quickSortHelperFull false fuel low high arr1 s = some out ∧
      vals out.1 = vals (quickSortHelper fuel low high arr2 s).1 ∧
      out.2 = (quickSortHelper fuel low high arr2 s).2 := by
  intro fuel
  induction fuel with
  | zero =>
    intro low high arr1 arr2 s hv h0 hhl
    exact ⟨(arr1, s), rfl, hv, rfl⟩
  | succ fuel ih =>
    intro low high arr1 arr2 s hv h0 hhl
    have hlen12 : arr1.length = arr2.length := vals_length_eq hv
    by_cases hlh : low < high
    · obtain ⟨op, hp1, hp2, hp3⟩ := partitionRunFull_false low high arr1 arr2 s hv h0 hlh hhl
      have hpi := partitionRun_pi_bounds low high arr2 s (le_of_lt hlh)
      have hplen : (partitionRun low high arr2 s).1.length = arr2.length :=
        partitionRun_length low high arr2 s
      have hoplen : op.1.length = arr2.length := by
        have hx := vals_length_eq hp2
        omega
      obtain ⟨o1, h11, h12, h13⟩ := ih low ((partitionRun low high arr2 s).2.2 - 1)
        op.1 (partitionRun low high arr2 s).1 (partitionRun low high arr2 s).2.1
        hp2 h0 (by omega)
      have ho1len : o1.1.length = arr2.length := by
        have hx := vals_length_eq h12
        have hy := quickSortHelper_length fuel low ((partitionRun low high arr2 s).2.2 - 1)
          (partitionRun low high arr2 s).1 (partitionRun low high arr2 s).2.1
        omega
      obtain ⟨o2, h21, h22, h23⟩ := ih ((partitionRun low high arr2 s).2.2 + 1) high
        o1.1 (quickSortHelper fuel low ((partitionRun low high arr2 s).2.2 - 1)
          (partitionRun low high arr2 s).1 (partitionRun low high arr2 s).2.1).1
        o1.2 h12 (by omega) (by omega)
      refine ⟨o2, ?_, ?_, ?_⟩
      · simp only [quickSortHelperFull]
        rw [if_pos hlh, hp1, Option.bind_eq_bind, Option.some_bind, hp3,
          h11, Option.bind_eq_bind, Option.some_bind, h21]
      · simp only [quickSortHelper]
        rw [if_pos hlh]
        rw [h13] at h22
        exact h22
      · simp only [quickSortHelper]
        rw [if_pos hlh]
        rw [h13] at h23
        exact h23
    · refine ⟨(arr1, s), ?_, ?_, ?_⟩
      · simp only [quickSortHelperFull]
        rw [if_neg hlh]
      · simp only [quickSortHelper]
        rw [if_neg hlh]
        exact hv
      · simp only [quickSortHelper]
        rw [if_neg hlh]

theorem quickSortFull_true (arr : List ArrayBar) (s : SortStats) :
    quickSortFull true arr s = some (quickSortRun arr s) := by
  simp only [quickSortFull, quickSortRun, quickSortHelperFull_true, Option.bind_eq_bind,
    Option.some_bind, if_true]
  rfl

theorem quickSortFull_false (arr : List ArrayBar) (s : SortStats) :
    ∃ out, quickSortFull false arr s = some out ∧
      vals out.1 = vals (quickSortRun arr s).1 ∧ out.2 = (quickSortRun arr s).2 := by
  obtain ⟨o, h1, h2, h3⟩ := quickSortHelperFull_false (arr.length + 1) 0
    (Int.ofNat arr.length - 1) arr arr s rfl le_rfl
    (by rw [Int.ofNat_eq_natCast]; omega)
  refine ⟨(o.1.map fun x => { x with isSorted := true }, o.2), ?_, ?_, ?_⟩
  · simp only [quickSortFull, Bool.false_eq_true, if_false]
    rw [h1, Option.bind_eq_bind, Option.some_bind]
    rfl
  · rw [vals_map_sorted_flag]
    exact h2
  · exact h3

theorem vals_setFlag2 (l : List ArrayBar) (i : Nat) (f : ArrayBar → ArrayBar)
    (hf : ∀ x, (f x).value = x.value) :
    vals (l.set i (f (getN l i))) = vals l := by
  rcases Nat.lt_or_ge i l.length with hi | hi
  · exact vals_setFlag l i f hf hi
  · rw [List.set_eq_of_length_le hi]

theorem heapMarkCompare_eq (arr : List ArrayBar) (i left right n : Nat)
    (hi : i < arr.length) (hln : left < n → left < arr.length)
    (hrn : right < n → right < arr.length) :
    ∃ l2, heapMarkCompare arr i left right n = some l2 ∧ vals l2 = vals arr ∧
      l2.length = arr.length := by
  unfold heapMarkCompare
  rw [setFlagAt_pos arr i (fun x => { x with isComparing := true }) hi,
    Option.bind_eq_bind, Option.some_bind]
  by_cases hL : left < n
  · rw [if_pos hL, setFlagAt_pos _ left (fun x => { x with isComparing := true })
      (by simpa using hln hL), Option.some_bind]
    dsimp only
    by_cases hR : right < n
    · rw [if_pos hR, setFlagAt_pos _ right (fun x => { x with isComparing := true })
        (by simp only [List.length_set]; exact hrn hR)]
      refine ⟨_, rfl, ?_, ?_⟩
      · rw [vals_setFlag2 _ _ (fun x => { x with isComparing := true }) (fun x => rfl),
          vals_setFlag2 _ _ (fun x => { x with isComparing := true }) (fun x => rfl),
          vals_setFlag2 _ _ (fun x => { x with isComparing := true }) (fun x => rfl)]
      · simp
    · rw [if_neg hR]
      refine ⟨_, rfl, ?_, ?_⟩
      · rw [vals_setFlag2 _ _ (fun x => { x with isComparing := true }) (fun x => rfl),
          vals_setFlag2 _ _ (fun x => { x with isComparing := true }) (fun x => rfl)]
      · simp
  · rw [if_neg hL, Option.pure_def, Option.some_bind]
    dsimp only
    by_cases hR : right < n
    · rw [if_pos hR, setFlagAt_pos _ right (fun x => { x with isComparing := true })
        (by simp only [List.length_set]; exact hrn hR)]
      refine ⟨_, rfl, ?_, ?_⟩
      · rw [vals_setFlag2 _ _ (fun x => { x with isComparing := true }) (fun x => rfl),
          vals_setFlag2 _ _ (fun x => { x with isComparing := true }) (fun x => rfl)]
      · simp
    · rw [if_neg hR]
      exact ⟨_, rfl,
        vals_setFlag2 _ _ (fun x => { x with isComparing := true }) (fun x => rfl), by simp⟩

theorem heapClearCompare_eq (arr : List ArrayBar) (i left right n : Nat)
    (hi : i < arr.length) (hln : left < n → left < arr.length)
    (hrn : right < n → right < arr.length) :
    ∃ l2, heapClearCompare arr i left right n = some l2 ∧ vals l2 = vals arr ∧
      l2.length = arr.length := by
  unfold heapClearCompare
  rw [setFlagAt_pos arr i (fun x => { x with isComparing := false }) hi,
    Option.bind_eq_bind, Option.some_bind]
  by_cases hL : left < n
  · rw [if_pos hL, setFlagAt_pos _ left (fun x => { x with isComparing := false })
      (by simpa using hln hL), Option.some_bind]
    dsimp only
    by_cases hR : right < n
    · rw [if_pos hR, setFlagAt_pos _ right (fun x => { x with isComparing := false })
        (by simp only [List.length_set]; exact hrn hR)]
      refine ⟨_, rfl, ?_, ?_⟩
      · rw [vals_setFlag2 _ _ (fun x => { x with isComparing := false }) (fun x => rfl),
          vals_setFlag2 _ _ (fun x => { x with isComparing := false }) (fun x => rfl),
          vals_setFlag2 _ _ (fun x => { x with isComparing := false }) (fun x => rfl)]
      · simp
    · rw [if_neg hR]
      refine ⟨_, rfl, ?_, ?_⟩
      · rw [vals_setFlag2 _ _ (fun x => { x with isComparing := false }) (fun x => rfl),
          vals_setFlag2 _ _ (fun x => { x with isComparing := false }) (fun x => rfl)]
      · simp
  · rw [if_neg hL, Option.pure_def, Option.some_bind]
    dsimp only
    by_cases hR : right < n
    · rw [if_pos hR, setFlagAt_pos _ right (fun x => { x with isComparing := false })
        (by simp only [List.length_set]; exact hrn hR)]
      refine ⟨_, rfl, ?_, ?_⟩
      · rw [vals_setFlag2 _ _ (fun x => { x with isComparing := false }) (fun x => rfl),
          vals_setFlag2 _ _ (fun x => { x with isComparing := false }) (fun x => rfl)]
      · simp
    · rw [if_neg hR]
      exact ⟨_, rfl,
        vals_setFlag2 _ _ (fun x => { x with isComparing := false }) (fun x => rfl), by simp⟩

theorem heapMarkSwap_eq (arr : List ArrayBar) (i largest : Nat)
    (hi : i < arr.length) (hl : largest < arr.length) :
    ∃ l2, heapMarkSwap arr i largest = some l2 ∧ vals l2 = vals arr ∧
      l2.length = arr.length := by
  unfold heapMarkSwap
  rw [setFlagAt_pos arr i (fun x => { x with isSwapping := true }) hi,
    Option.bind_eq_bind, Option.some_bind,
    setFlagAt_pos _ largest (fun x => { x with isSwapping := true }) (by simpa using hl)]
  refine ⟨_, rfl, ?_, ?_⟩
  · rw [vals_setFlag2 _ _ (fun x => { x with isSwapping := true }) (fun x => rfl),
      vals_setFlag2 _ _ (fun x => { x with isSwapping := true }) (fun x => rfl)]
  · simp

theorem heapClearSwap_eq (arr : List ArrayBar) (i largest : Nat)
    (hi : i < arr.length) (hl : largest < arr.length) :
    ∃ l2, heapClearSwap arr i largest = some l2 ∧ vals l2 = vals arr ∧
      l2.length = arr.length := by
  unfold heapClearSwap
  rw [setFlagAt_pos arr i (fun x => { x with isSwapping := false }) hi,
    Option.bind_eq_bind, Option.some_bind,
    setFlagAt_pos _ largest (fun x => { x with isSwapping := false }) (by simpa using hl)]
  refine ⟨_, rfl, ?_, ?_⟩
  · rw [vals_setFlag2 _ _ (fun x => { x with isSwapping := false }) (fun x => rfl),
      vals_setFlag2 _ _ (fun x => { x with isSwapping := false }) (fun x => rfl)]
  · simp

theorem vals_swapN_congr {l1 l2 : List ArrayBar} (h : vals l1 = vals l2) (i j : Nat) :
    vals (swapN l1 i j) = vals (swapN l2 i j) := by
  rw [vals_swapN, vals_swapN, h]

theorem heapifyFuel_length : ∀ (fuel n i : Nat) (arr : List ArrayBar) (s : SortStats),
    (heapifyFuel fuel n i arr s).1.length = arr.length := by
  intro fuel
  induction fuel with
  | zero => intro n i arr s; rfl
  | succ fuel ih =>
    intro n i arr s
    simp only [heapifyFuel]
    split <;> split <;> split
    all_goals try rw [ih]
    all_goals simp [swapN, setN]

theorem heapifyFull_true : ∀ (fuel n i : Nat) (arr : List ArrayBar) (s : SortStats),
    heapifyFull true fuel n i arr s = some (heapifyFuel fuel n i arr s) := by
  intro fuel
  induction fuel with
  | zero => intro n i arr s; rfl
  | succ fuel ih =>
    intro n i arr s
    simp only [heapifyFull, heapifyFuel, if_true, pure_bind, bind_pure]
    split
    · next hc =>
      rw [ih]
      split
      all_goals try split
      all_goals rfl
    · next hc =>
      rw [ih]
      split
      all_goals try split
      all_goals rfl

theorem heapifyFull_false : ∀ (fuel : Nat) (n i : Nat) (arr1 arr2 : List ArrayBar)
    (s : SortStats), vals arr1 = vals arr2 → n ≤ arr1.length → i < n →
    ∃ out, heapifyFull false fuel n i arr1 s = some out ∧
      vals out.1 = vals (heapifyFuel fuel n i arr2 s).1 ∧
      out.2 = (heapifyFuel fuel n i arr2 s).2 := by
  intro fuel
  induction fuel with
  | zero => intro n i arr1 arr2 s hv hn hi; exact ⟨(arr1, s), rfl, hv, rfl⟩
  | succ fuel ih =>
    intro n i arr1 arr2 s hv hn hi
    have hlen12 : arr1.length = arr2.length := vals_length_eq hv
    obtain ⟨A1, hA1, hA1v, hA1len⟩ := heapMarkCompare_eq arr1 i (2 * i + 1) (2 * i + 2) n
      (by omega) (fun h => by omega) (fun h => by omega)
    have hA1v2 : vals A1 = vals arr2 := hA1v.trans hv
    have hval : ∀ k, (getN A1 k).value = (getN arr2 k).value :=
      fun k => getN_value_eq hA1v2 k
    simp only [heapifyFull, heapifyFuel, Bool.false_eq_true, if_false]
    rw [hA1, Option.bind_eq_bind, Option.some_bind]
    simp only [hval]
    split
    · next hc1 =>
      split
      · next hc2 =>
        split
        · next hne =>
          obtain ⟨A2, hMS, hMSv, hMSlen⟩ := heapMarkSwap_eq A1 i (2 * i + 2)
            (by omega) (by omega)
          have hswv : vals (swapN A2 i (2 * i + 2)) = vals (swapN arr2 i (2 * i + 2)) :=
            vals_swapN_congr (hMSv.trans hA1v2) i (2 * i + 2)
          have hswlen : (swapN A2 i (2 * i + 2)).length = arr1.length := by
            simp only [swapN, setN, List.length_set]
            omega
          obtain ⟨A4, hCS, hCSv, hCSlen⟩ := heapClearSwap_eq (swapN A2 i (2 * i + 2))
            i (2 * i + 2) (by omega) (by omega)
          obtain ⟨rO, hR1, hR2, hR3⟩ := ih n (2 * i + 2) A4 (swapN arr2 i (2 * i + 2))
            { comparisons := s.comparisons + 1 + 1, swaps := s.swaps + 1 }
            (hCSv.trans hswv) (by omega) (by omega)
          have hrOlen : rO.1.length = arr2.length := by
            have hx := vals_length_eq hR2
            rw [heapifyFuel_length] at hx
            simp only [swapN, setN, List.length_set] at hx
            omega
          obtain ⟨C3, hCC, hCCv, hCClen⟩ := heapClearCompare_eq rO.1 i
            (2 * i + 1) (2 * i + 2) n (by omega) (fun h => by omega) (fun h => by omega)
          refine ⟨(C3, rO.2), ?_, ?_, ?_⟩
          · rw [hMS, Option.some_bind, hCS, Option.some_bind, hR1, Option.bind_eq_bind,
              Option.some_bind, hCC, Option.some_bind]
            rfl
          · exact hCCv.trans hR2
          · exact hR3
        · next hne => exact absurd (by omega : 2 * i + 2 ≠ i) hne
      · next hc2 =>
        split
        · next hne =>
          obtain ⟨A2, hMS, hMSv, hMSlen⟩ := heapMarkSwap_eq A1 i (2 * i + 1)
            (by omega) (by omega)
          have hswv : vals (swapN A2 i (2 * i + 1)) = vals (swapN arr2 i (2 * i + 1)) :=
            vals_swapN_congr (hMSv.trans hA1v2) i (2 * i + 1)
          have hswlen : (swapN A2 i (2 * i + 1)).length = arr1.length := by
            simp only [swapN, setN, List.length_set]
            omega
          obtain ⟨A4, hCS, hCSv, hCSlen⟩ := heapClearSwap_eq (swapN A2 i (2 * i + 1))
            i (2 * i + 1) (by omega) (by omega)
          obtain ⟨rO, hR1, hR2, hR3⟩ := ih n (2 * i + 1) A4 (swapN arr2 i (2 * i + 1))
            { comparisons := s.comparisons + 1 + 1, swaps := s.swaps + 1 }
            (hCSv.trans hswv) (by omega) (by omega)
          have hrOlen : rO.1.length = arr2.length := by
            have hx := vals_length_eq hR2
            rw [heapifyFuel_length] at hx
            simp only [swapN, setN, List.length_set] at hx
            omega
          obtain ⟨C3, hCC, hCCv, hCClen⟩ := heapClearCompare_eq rO.1 i
            (2 * i + 1) (2 * i + 2) n (by omega) (fun h => by omega) (fun h => by omega)
          refine ⟨(C3, rO.2), ?_, ?_, ?_⟩
          · rw [hMS, Option.some_bind, hCS, Option.some_bind, hR1, Option.bind_eq_bind,
              Option.some_bind, hCC, Option.some_bind]
            rfl
          · exact hCCv.trans hR2
          · exact hR3
        · next hne => exact absurd (by omega : 2 * i + 1 ≠ i) hne
    · next hc1 =>
      split
      · next hc2 =>
        split
        · next hne =>
          obtain ⟨A2, hMS, hMSv, hMSlen⟩ := heapMarkSwap_eq A1 i (2 * i + 2)
            (by omega) (by omega)
          have hswv : vals (swapN A2 i (2 * i + 2)) = vals (swapN arr2 i (2 * i + 2)) :=
            vals_swapN_congr (hMSv.trans hA1v2) i (2 * i + 2)
          have hswlen : (swapN A2 i (2 * i + 2)).length = arr1.length := by
            simp only [swapN, setN, List.length_set]
            omega
          obtain ⟨A4, hCS, hCSv, hCSlen⟩ := heapClearSwap_eq (swapN A2 i (2 * i + 2))
            i (2 * i + 2) (by omega) (by omega)
          obtain ⟨rO, hR1, hR2, hR3⟩ := ih n (2 * i + 2) A4 (swapN arr2 i (2 * i + 2))
            { comparisons := s.comparisons + 1 + 1, swaps := s.swaps + 1 }
            (hCSv.trans hswv) (by omega) (by omega)
          have hrOlen : rO.1.length = arr2.length := by
            have hx := vals_length_eq hR2
            rw [heapifyFuel_length] at hx
            simp only [swapN, setN, List.length_set] at hx
            omega
          obtain ⟨C3, hCC, hCCv, hCClen⟩ := heapClearCompare_eq rO.1 i
            (2 * i + 1) (2 * i + 2) n (by omega) (fun h => by omega) (fun h => by omega)
          refine ⟨(C3, rO.2), ?_, ?_, ?_⟩
          · rw [hMS, Option.some_bind, hCS, Option.some_bind, hR1, Option.bind_eq_bind,
              Option.some_bind, hCC, Option.some_bind]
            rfl
          · exact hCCv.trans hR2
          · exact hR3
        · next hne => exact absurd (by omega : 2 * i + 2 ≠ i) hne
      · next hc2 =>
        split
        · next hne => exact absurd rfl hne
        · next hne =>
          obtain ⟨C3, hCC, hCCv, hCClen⟩ := heapClearCompare_eq A1 i
            (2 * i + 1) (2 * i + 2) n (by omega) (fun h => by omega) (fun h => by omega)
          refine ⟨(C3, { comparisons := s.comparisons + 1 + 1, swaps := s.swaps }),
            ?_, ?_, ?_⟩
          · rw [Option.pure_def, Option.bind_eq_bind, Option.some_bind, hCC,
              Option.some_bind]
          · exact hCCv.trans hA1v2
          · rfl

theorem buildHeapLoopFull_true : ∀ (k : Nat) (arr : List ArrayBar) (s : SortStats),
    buildHeapLoopFull true k arr s = some (buildHeapLoop k arr s) := by
  intro k
  induction k with
  | zero => intro arr s; rfl
  | succ k ih =>
    intro arr s
    simp only [buildHeapLoopFull, buildHeapLoop, heapifyFull_true, Option.bind_eq_bind,
      Option.some_bind]
    rw [ih]

theorem buildHeapLoopFull_false : ∀ (k : Nat) (arr1 arr2 : List ArrayBar) (s : SortStats),
    vals arr1 = vals arr2 → k ≤ arr1.length →
    ∃ out, buildHeapLoopFull false k arr1 s = some out ∧
      vals out.1 = vals (buildHeapLoop k arr2 s).1 ∧ out.2 = (buildHeapLoop k arr2 s).2 := by
  intro k
  induction k with
  | zero => intro arr1 arr2 s hv hk; exact ⟨(arr1, s), rfl, hv, rfl⟩
  | succ k ih =>
    intro arr1 arr2 s hv hk
    have hlen12 : arr1.length = arr2.length := vals_length_eq hv
    obtain ⟨r, h1, h2, h3⟩ := heapifyFull_false (arr1.length + 1) arr1.length k arr1 arr2 s
      hv (by omega) (by omega)
    rw [hlen12] at h2 h3
    have hrlen : r.1.length = arr2.length := by
      have hx := vals_length_eq h2
      rw [heapifyFuel_length] at hx
      omega
    obtain ⟨out, ho1, ho2, ho3⟩ := ih r.1
      (heapifyFuel (arr2.length + 1) arr2.length k arr2 s).1 r.2 h2 (by omega)
    rw [h3] at ho2 ho3
    refine ⟨out, ?_, ?_, ?_⟩
    · simp only [buildHeapLoopFull]
      rw [h1, Option.bind_eq_bind, Option.some_bind]
      exact ho1
    · simp only [buildHeapLoop]
      exact ho2
    · simp only [buildHeapLoop]
      exact ho3

theorem extractMarkSwap_eq (arr : List ArrayBar) (i1 : Nat)
    (h0 : 0 < arr.length) (hi : i1 < arr.length) :
    ∃ l2, extractMarkSwap arr i1 = some l2 ∧ vals l2 = vals arr ∧
      l2.length = arr.length := by
  unfold extractMarkSwap
  rw [setFlagAt_pos arr 0 (fun x => { x with isSwapping := true }) h0,
    Option.bind_eq_bind, Option.some_bind,
    setFlagAt_pos _ i1 (fun x => { x with isSwapping := true }) (by simpa using hi)]
  refine ⟨_, rfl, ?_, ?_⟩
  · rw [vals_setFlag2 _ _ (fun x => { x with isSwapping := true }) (fun x => rfl),
      vals_setFlag2 _ _ (fun x => { x with isSwapping := true }) (fun x => rfl)]
  · simp

theorem extractSettle_eq (arr : List ArrayBar) (i1 : Nat)
    (h0 : 0 < arr.length) (hi : i1 < arr.length) :
    ∃ l2, extractSettle arr i1 = some l2 ∧ vals l2 = vals arr ∧
      l2.length = arr.length := by
  unfold extractSettle
  rw [setFlagAt_pos arr i1 (fun x => { x with isSorted := true }) hi,
    Option.bind_eq_bind, Option.some_bind,
    setFlagAt_pos _ 0 (fun x => { x with isSwapping := false }) (by simpa using h0),
    Option.some_bind,
    setFlagAt_pos _ i1 (fun x => { x with isSwapping := false })
      (by simp only [List.length_set]; exact hi)]
  refine ⟨_, rfl, ?_, ?_⟩
  · rw [vals_setFlag2 _ _ (fun x => { x with isSwapping := false }) (fun x => rfl),
      vals_setFlag2 _ _ (fun x => { x with isSwapping := false }) (fun x => rfl),
      vals_setFlag2 _ _ (fun x => { x with isSorted := true }) (fun x => rfl)]
  · simp

theorem extractLoopFull_true : ∀ (i : Nat) (arr : List ArrayBar) (s : SortStats),
    extractLoopFull true i arr s = some (extractLoop i arr s) := by
  intro i
  induction i with
  | zero => intro arr s; rfl
  | succ i ih =>
    intro arr s
    simp only [extractLoopFull, extractLoop, if_true, pure_bind, heapifyFull_true,
      Option.bind_eq_bind, Option.some_bind]
    rw [ih]

theorem extractLoopFull_false : ∀ (i : Nat) (arr1 arr2 : List ArrayBar) (s : SortStats),
    vals arr1 = vals arr2 → i < arr1.length →
    ∃ out, extractLoopFull false i arr1 s = some out ∧
      vals out.1 = vals (extractLoop i arr2 s).1 ∧ out.2 = (extractLoop i arr2 s).2 := by
  intro i
  induction i with
  | zero => intro arr1 arr2 s hv hi; exact ⟨(arr1, s), rfl, hv, rfl⟩
  | succ i ih =>
    intro arr1 arr2 s hv hi
    have hlen12 : arr1.length = arr2.length := vals_length_eq hv
    obtain ⟨A1, hA1, hA1v, hA1len⟩ := extractMarkSwap_eq arr1 (i + 1) (by omega) (by omega)
    have hsw : vals (swapN A1 0 (i + 1)) = vals (swapN arr2 0 (i + 1)) :=
      vals_swapN_congr (hA1v.trans hv) 0 (i + 1)
    have hswlen : (swapN A1 0 (i + 1)).length = arr1.length := by
      simp only [swapN, setN, List.length_set]
      omega
    obtain ⟨A3, hA3, hA3v, hA3len⟩ := extractSettle_eq (swapN A1 0 (i + 1)) (i + 1)
      (by omega) (by omega)
    obtain ⟨r, h1, h2, h3⟩ := heapifyFull_false (A3.length + 1) (i + 1) 0 A3
      (swapN arr2 0 (i + 1)) { comparisons := s.comparisons, swaps := s.swaps + 1 }
      (hA3v.trans hsw) (by omega) (by omega)
    have hfe : A3.length = (swapN arr2 0 (i + 1)).length := by
      simp only [swapN, setN, List.length_set]
      omega
    rw [hfe] at h2 h3
    have hrlen : r.1.length = arr2.length := by
      have hx := vals_length_eq h2
      rw [heapifyFuel_length] at hx
      simp only [swapN, setN, List.length_set] at hx
      omega
    obtain ⟨out, ho1, ho2, ho3⟩ := ih r.1
      (heapifyFuel ((swapN arr2 0 (i + 1)).length + 1) (i + 1) 0 (swapN arr2 0 (i + 1))
        { comparisons := s.comparisons, swaps := s.swaps + 1 }).1 r.2 h2 (by omega)
    rw [h3] at ho2 ho3
    refine ⟨out, ?_, ?_, ?_⟩
    · simp only [extractLoopFull, Bool.false_eq_true, if_false]
      rw [hA1, Option.bind_eq_bind, Option.some_bind, hA3, Option.some_bind,
        h1, Option.bind_eq_bind, Option.some_bind]
      exact ho1
    · simp only [extractLoop]
      exact ho2
    · simp only [extractLoop]
      exact ho3

theorem buildHeapLoop_length : ∀ (k : Nat) (arr : List ArrayBar) (s : SortStats),
    (buildHeapLoop k arr s).1.length = arr.length := by
  intro k
  induction k with
  | zero => intro arr s; rfl
  | succ k ih =>
    intro arr s
    simp only [buildHeapLoop]
    rw [ih, heapifyFuel_length]

theorem extractLoop_length : ∀ (i : Nat) (arr : List ArrayBar) (s : SortStats),
    (extractLoop i arr s).1.length = arr.length := by
  intro i
  induction i with
  | zero => intro arr s; rfl
  | succ i ih =>
    intro arr s
    simp only [extractLoop]
    rw [ih, heapifyFuel_length]
    simp [swapN, setN]

theorem heapSortFull_true (arr : List ArrayBar) (s : SortStats) :
    heapSortFull true arr s = some (heapSortRun arr s) := by
  simp only [heapSortFull, heapSortRun, buildHeapLoopFull_true, Option.bind_eq_bind,
    Option.some_bind, extractLoopFull_true, if_true]
  rfl

theorem heapSortFull_false (arr : List ArrayBar) (s : SortStats) (h : arr ≠ []) :
    ∃ out, heapSortFull false arr s = some out ∧
      vals out.1 = vals (heapSortRun arr s).1 ∧ out.2 = (heapSortRun arr s).2 := by
  have hlen : 0 < arr.length := List.length_pos.mpr h
  obtain ⟨bo, hb1, hb2, hb3⟩ := buildHeapLoopFull_false (arr.length / 2) arr arr s rfl
    (by omega)
  have hblen : bo.1.length = arr.length := by
    have hx := vals_length_eq hb2
    have hy : (buildHeapLoop (arr.length / 2) arr s).1.length = arr.length :=
      buildHeapLoop_length (arr.length / 2) arr s
    omega
  obtain ⟨eo, he1, he2, he3⟩ := extractLoopFull_false (arr.length - 1) bo.1
    (buildHeapLoop (arr.length / 2) arr s).1 bo.2 hb2 (by omega)
  rw [hb3] at he2 he3
  have helen : eo.1.length = arr.length := by
    have hx := vals_length_eq he2
    have hy : (extractLoop (arr.length - 1) (buildHeapLoop (arr.length / 2) arr s).1
        (buildHeapLoop (arr.length / 2) arr s).2).1.length =
        (buildHeapLoop (arr.length / 2) arr s).1.length :=
      extractLoop_length (arr.length - 1) _ _
    have hy2 : (buildHeapLoop (arr.length / 2) arr s).1.length = arr.length :=
      buildHeapLoop_length (arr.length / 2) arr s
    omega
  have hwrite := setFlagAt_pos eo.1 0 (fun x => { x with isSorted := true }) (by omega)
  refine ⟨(eo.1.set 0 ((fun x => { x with isSorted := true }) (getN eo.1 0)), eo.2),
    ?_, ?_, ?_⟩
  · simp only [heapSortFull, Bool.false_eq_true, if_false]
    rw [hb1, Option.bind_eq_bind, Option.some_bind, he1, Option.some_bind, hwrite]
    rfl
  · rw [vals_setFlag2 _ _ (fun x => { x with isSorted := true }) (fun x => rfl)]
    exact he2
  · exact he3

/-- **C2 (corrected to non-empty inputs).** For every non-empty input array
and each algorithm, the benchmark mode returns exactly the pure run, and the
interactive mode also succeeds, producing the same final comparison and swap
counts and the same output value order; the mode flag only toggles the
Boolean display flags. (On the empty array the modes disagree for bubble and
heap sort, see the counterexample.) -/
theorem claimC2_mode_equivalence (arr : List ArrayBar) (s : SortStats) (h : arr ≠ []) :
    (bubbleSortFull true arr s = some (bubbleSortRun arr s) ∧
      ∃ out, bubbleSortFull false arr s = some out ∧
        vals out.1 = vals (bubbleSortRun arr s).1 ∧ out.2 = (bubbleSortRun arr s).2) ∧
    (quickSortFull true arr s = some (quickSortRun arr s) ∧
      ∃ out, quickSortFull false arr s = some out ∧
        vals out.1 = vals (quickSortRun arr s).1 ∧ out.2 = (quickSortRun arr s).2) ∧
    (mergeSortFull true arr s = some (mergeSortRun arr s) ∧
      ∃ out, mergeSortFull false arr s = some out ∧
        vals out.1 = vals (mergeSortRun arr s).1 ∧ out.2 = (mergeSortRun arr s).2) ∧
    (heapSortFull true arr s = some (heapSortRun arr s) ∧
      ∃ out, heapSortFull false arr s = some out ∧
        vals out.1 = vals (heapSortRun arr s).1 ∧ out.2 = (heapSortRun arr s).2) :=
  ⟨⟨bubbleSortFull_true arr s, bubbleSortFull_false arr s h⟩,
   ⟨quickSortFull_true arr s, quickSortFull_false arr s⟩,
   ⟨mergeSortFull_true arr s, mergeSortFull_false arr s⟩,
   ⟨heapSortFull_true arr s, heapSortFull_false arr s h⟩⟩

theorem claimC2_witness :
    mkBars [2, 1] ≠ [] ∧
    ((bubbleSortFull true (mkBars [2, 1]) ⟨0, 0⟩ = some (bubbleSortRun (mkBars [2, 1]) ⟨0, 0⟩) ∧
      ∃ out, bubbleSortFull false (mkBars [2, 1]) ⟨0, 0⟩ = some out ∧
        vals out.1 = vals (bubbleSortRun (mkBars [2, 1]) ⟨0, 0⟩).1 ∧ out.2 = (bubbleSortRun (mkBars [2, 1]) ⟨0, 0⟩).2) ∧
    (quickSortFull true (mkBars [2, 1]) ⟨0, 0⟩ = some (quickSortRun (mkBars [2, 1]) ⟨0, 0⟩) ∧
      ∃ out, quickSortFull false (mkBars [2, 1]) ⟨0, 0⟩ = some out ∧
        vals out.1 = vals (quickSortRun (mkBars [2, 1]) ⟨0, 0⟩).1 ∧ out.2 = (quickSortRun (mkBars [2, 1]) ⟨0, 0⟩).2) ∧
    (mergeSortFull true (mkBars [2, 1]) ⟨0, 0⟩ = some (mergeSortRun (mkBars [2, 1]) ⟨0, 0⟩) ∧
      ∃ out, mergeSortFull false (mkBars [2, 1]) ⟨0, 0⟩ = some out ∧
        vals out.1 = vals (mergeSortRun (mkBars [2, 1]) ⟨0, 0⟩).1 ∧ out.2 = (mergeSortRun (mkBars [2, 1]) ⟨0, 0⟩).2) ∧
    (heapSortFull true (mkBars [2, 1]) ⟨0, 0⟩ = some (heapSortRun (mkBars [2, 1]) ⟨0, 0⟩) ∧
      ∃ out, heapSortFull false (mkBars [2, 1]) ⟨0, 0⟩ = some out ∧
        vals out.1 = vals (heapSortRun (mkBars [2, 1]) ⟨0, 0⟩).1 ∧ out.2 = (heapSortRun (mkBars [2, 1]) ⟨0, 0⟩).2)) :=
  ⟨by decide, claimC2_mode_equivalence (mkBars [2, 1]) ⟨0, 0⟩ (by decide)⟩

/-- **C2 (counterexample to the original "for every input array" claim).** On
the empty array the two modes disagree for bubble sort: the benchmark path
returns the empty array with unchanged counts, while the interactive path
throws (modelled as `none`) on the final `workingArray[0].isSorted = true`
write of page.tsx line 300. -/
theorem claimC2_counterexample :
    bubbleSortFull true [] ⟨0, 0⟩ = some ([], ⟨0, 0⟩) ∧
    bubbleSortFull false [] ⟨0, 0⟩ = none :=
  ⟨rfl, rfl⟩

/-- **C6 (code bug).** On the empty (zero-length) array, benchmark mode of
all four engines and interactive mode of quick and merge sort return the
empty array with zero comparisons and zero swaps, but interactive bubble
sort and heap sort fail: `workingArray[0].isSorted = true` (page.tsx lines
300 and 603) dereferences `undefined`, throwing a TypeError, modelled here
as `none`. The claimed universal empty-input short-circuit does not hold. -/
theorem claimC6_empty_array :
    bubbleSortFull false [] ⟨0, 0⟩ = none ∧
    heapSortFull false [] ⟨0, 0⟩ = none ∧
    bubbleSortFull true [] ⟨0, 0⟩ = some ([], ⟨0, 0⟩) ∧
    quickSortFull true [] ⟨0, 0⟩ = some ([], ⟨0, 0⟩) ∧
    mergeSortFull true [] ⟨0, 0⟩ = some ([], ⟨0, 0⟩) ∧
    heapSortFull true [] ⟨0, 0⟩ = some ([], ⟨0, 0⟩) ∧
    quickSortFull false [] ⟨0, 0⟩ = some ([], ⟨0, 0⟩) ∧
    mergeSortFull false [] ⟨0, 0⟩ = some ([], ⟨0, 0⟩) :=
  ⟨rfl, rfl, rfl, rfl, rfl, rfl, rfl, rfl⟩

end SortViz
